import Mathlib

/-!
Verification of the symbol-index engine and import rewriter of
SublimePythonImportMagic (`importmagic/index.py` and `importer.py`).

Modelling conventions:
* Python floats are modelled as rationals (`ℚ`); all scores in the program are
  produced by `+`, `*`, `-` and comparisons on small literals, and every
  property verified here concerns order and equality of such values.
* Python dicts are modelled as insertion-ordered association lists.  CPython 2
  dicts iterate in an unspecified order; every property verified here is
  insensitive to that order (candidate lists are sorted by a linear order
  before being returned, and loading is commutative), so fixing insertion
  order in the model loses nothing.
* Exceptions are modelled with `Option PyErr` / `Except` values.
-/

namespace ImportMagic

/-- Python exceptions that the modelled code can raise. -/
inductive PyErr : Type where
  | valueError
  | assertionError
  | userError
  deriving DecidableEq, Repr

mutual

/-- A `SymbolIndex` node (index.py): `score`, `location`, the `_exports`
dict (name → score) and the `_tree` dict of children.  The parent pointer is
not represented; operations that walk to the root are modelled as functions
on the root node. -/
inductive Node : Type where
  | mk (score : ℚ) (location : String) (exports : List (String × ℚ)) (children : Children)

/-- The `_tree` dict of a node: each slot is either a bare float score (a leaf
symbol) or a nested `SymbolIndex` (a subtree). -/
inductive Children : Type where
  | nil
  | leafc (name : String) (v : ℚ) (rest : Children)
  | subc (name : String) (t : Node) (rest : Children)

end

def Node.score : Node → ℚ
  | .mk s _ _ _ => s

def Node.location : Node → String
  | .mk _ l _ _ => l

def Node.exports : Node → List (String × ℚ)
  | .mk _ _ e _ => e

def Node.children : Node → Children
  | .mk _ _ _ c => c

def Node.withChildren : Node → Children → Node
  | .mk s l e _, ch => .mk s l e ch

/-- `self._tree.get(name)`: the slot stored under `name`, if any. -/
def Children.lookupc : Children → String → Option (Sum ℚ Node)
  | .nil, _ => none
  | .leafc k v r, n => if k = n then some (Sum.inl v) else r.lookupc n
  | .subc k t r, n => if k = n then some (Sum.inr t) else r.lookupc n

def Children.keys : Children → List String
  | .nil => []
  | .leafc k _ r => k :: r.keys
  | .subc k _ r => k :: r.keys

/-- `SymbolIndex.add` (index.py lines 229-232):

    current_score = self._tree.get(name, 0.0)
    if score > current_score:
        self._tree[name] = score

When the existing slot is a subtree, `current_score` is the `SymbolIndex`
object and the Python 2 mixed-type comparison `score > instance` is `False`
(numbers order below non-numeric objects in CPython 2), so nothing is stored.
A new key is stored only when `score > 0.0`. -/
def Children.addc : Children → String → ℚ → Children
  | .nil, name, s => if s > 0 then .leafc name s .nil else .nil
  | .leafc k v r, name, s =>
      if k = name then (if s > v then .leafc k s r else .leafc k v r)
      else .leafc k v (r.addc name s)
  | .subc k t r, name, s =>
      if k = name then .subc k t r else .subc k t (r.addc name s)

def Node.add (n : Node) (name : String) (s : ℚ) : Node :=
  n.withChildren (n.children.addc name s)

/-- The score effectively stored under `name`, an absent (or subtree) entry
counting as `0.0`, matching `self._tree.get(name, 0.0)` for leaf slots. -/
def Children.effScore (c : Children) (name : String) : ℚ :=
  match c.lookupc name with
  | some (Sum.inl v) => v
  | _ => 0

/-- Leaf scores stored directly in this dict are strictly positive. -/
def Children.immLeavesPos : Children → Prop
  | .nil => True
  | .leafc _ v r => 0 < v ∧ r.immLeavesPos
  | .subc _ _ r => r.immLeavesPos

def Children.immLeavesPosDec : (c : Children) → Decidable c.immLeavesPos
  | .nil => .isTrue trivial
  | .leafc _ _ r => @instDecidableAnd _ _ _ (immLeavesPosDec r)
  | .subc _ _ r => immLeavesPosDec r

instance : DecidablePred Children.immLeavesPos := Children.immLeavesPosDec

/-- `SymbolIndex._score_key` (index.py lines 269-279).  The returned path list
uses `none` for the Python `None` marker placed before a leaf member:

    if not key: return [], 0.0
    key_score = value = scope._tree.get(key[0], None)
    if value is None: return [], 0.0
    if type(value) is float: return [None, key[0]], key_score
    else:
        path, score = self._score_key(value, key[1:])
        return [key[0]] + path, score + value.score
-/
def scoreKey (scope : Node) (key : List String) : List (Option String) × ℚ :=
  match key with
  | [] => ([], 0)
  | k :: rest =>
    match scope.children.lookupc k with
    | none => ([], 0)
    | some (Sum.inl v) => ([none, some k], v)
    | some (Sum.inr t) =>
      let pr := scoreKey t rest
      (some k :: pr.1, pr.2 + t.score)
termination_by structural key

/-- A candidate returned by `symbol_scores`: `(score, package, reference|None)`. -/
abbrev Cand := ℚ × String × Option String

/-- Helper for `pySplitDot`: accumulates the current segment (reversed). -/
def splitSegs (acc : List Char) : List Char → List String
  | [] => [String.mk acc.reverse]
  | c :: rest =>
      if c = '.' then String.mk acc.reverse :: splitSegs [] rest
      else splitSegs (c :: acc) rest

/-- Python's `symbol.split('.')`: split at every dot, keeping empty segments
(`''.split('.') == ['']`). -/
def pySplitDot (s : String) : List String := splitSegs [] s.data

def dotJoin (l : List String) : String := String.intercalate "." l

/-- Splitting of `sub_path` at the `None` marker and assembly of the
`(package_path, from_symbol)` pair, as in `score_walk` (index.py 165-170);
entries other than the marker are always strings, so `reduceOption` only
erases the marker-free wrapping. -/
def candParts (path : List String) (sp : List (Option String)) : String × Option String :=
  match sp.findIdx? Option.isNone with
  | some i =>
      (dotJoin (path ++ (sp.take i).reduceOption),
       some (dotJoin ((sp.drop (i + 1)).reduceOption)))
  | none => (dotJoin (path ++ sp.reduceOption), none)

mutual

/-- `score_walk` (index.py lines 162-177): the candidate contributed at
`scope` (kept when the raw `_score_key` score exceeds `0.1`, with final score
`score * scale`), followed by the candidates of every subtree child, each
visited with scale `subscope.score * scale - 0.1`. -/
def walkNode (fullKey : List String) (scope : Node) (path : List String)
    (scale : ℚ) : List Cand :=
  match scope with
  | .mk _ _ _ ch =>
    let pr := scoreKey scope fullKey
    (if pr.2 > 1/10 then
       [(pr.2 * scale, (candParts path pr.1).1, (candParts path pr.1).2)]
     else []) ++ walkChildren fullKey ch path scale
termination_by structural scope

def walkChildren (fullKey : List String) (c : Children) (path : List String)
    (scale : ℚ) : List Cand :=
  match c with
  | .nil => []
  | .leafc _ _ r => walkChildren fullKey r path scale
  | .subc k t r =>
      walkNode fullKey t (path ++ [k]) (t.score * scale - 1/10)
        ++ walkChildren fullKey r path scale
termination_by structural c

end

/-- The member slot of a candidate, `None` ordering below every string as in
Python 2. -/
def membBot : Option String → WithBot String
  | none => (⊥ : WithBot String)
  | some s => (s : WithBot String)

/-- The Python 2 comparison key of a candidate tuple: score, then module
path, then member. -/
def candKey (c : Cand) : Lex (ℚ × Lex (String × WithBot String)) :=
  toLex (c.1, toLex (c.2.1, membBot c.2.2))

/-- `scores.sort(reverse=True)`: descending in the full-tuple order. -/
def candGe (a b : Cand) : Prop := candKey b ≤ candKey a

/-- Executable Python 2 comparison of the optional member strings
(`None` below every string). -/
def membLeB : Option String → Option String → Bool
  | none, _ => true
  | some _, none => false
  | some x, some y => !(decide (y.data < x.data))

/-- Executable version of `candGe` (byte strings compared through their
character lists). -/
def candGeB (a b : Cand) : Bool :=
  if b.1 < a.1 then true
  else if a.1 < b.1 then false
  else if b.2.1.data < a.2.1.data then true
  else if a.2.1.data < b.2.1.data then false
  else membLeB b.2.2 a.2.2

theorem strLt_iff_data {x y : String} : x < y ↔ x.data < y.data :=
  String.lt_iff_toList_lt

theorem strLe_iff_data {x y : String} : x ≤ y ↔ ¬ y.data < x.data := by
  rw [← not_lt]
  exact not_congr strLt_iff_data

/-- Python 2 `None`-aware comparison of the optional member strings. -/
def membLe : Option String → Option String → Prop
  | none, _ => True
  | some _, none => False
  | some x, some y => x ≤ y

theorem membBot_le_iff (m n : Option String) : membBot m ≤ membBot n ↔ membLe m n := by
  cases m with
  | none => simp [membBot, membLe, bot_le]
  | some x =>
    cases n with
    | none =>
      simp only [membBot, membLe, iff_false]
      exact WithBot.not_coe_le_bot x
    | some y => simp [membBot, membLe, WithBot.coe_le_coe]

theorem membLe_iff_membLeB (m n : Option String) : membLe m n ↔ membLeB m n = true := by
  cases m with
  | none => simp [membLe, membLeB]
  | some x =>
    cases n with
    | none => simp [membLe, membLeB]
    | some y =>
      simp only [membLe, membLeB, Bool.not_eq_true', decide_eq_false_iff_not]
      exact strLe_iff_data

/-- `candGe` spelled out as nested comparisons of the three components. -/
theorem candGe_char (a b : Cand) :
    candGe a b ↔
      (b.1 < a.1 ∨ (b.1 = a.1 ∧
        (b.2.1 < a.2.1 ∨ (b.2.1 = a.2.1 ∧ membLe b.2.2 a.2.2)))) := by
  unfold candGe candKey
  rw [Prod.Lex.le_iff]
  dsimp only
  rw [Prod.Lex.le_iff]
  dsimp only
  rw [membBot_le_iff]

theorem candGe_iff_candGeB (a b : Cand) : candGe a b ↔ candGeB a b = true := by
  rw [candGe_char]
  unfold candGeB
  rcases lt_trichotomy b.1 a.1 with hs | hs | hs
  · simp [hs]
  · rw [if_neg (hs ▸ lt_irrefl _), if_neg (hs ▸ lt_irrefl _)]
    rcases lt_trichotomy b.2.1 a.2.1 with hp | hp | hp
    · simp [hs, hp, strLt_iff_data.mp hp]
    · have hd : ¬ b.2.1.data < a.2.1.data := by
        rw [hp]
        intro h
        exact lt_irrefl _ (strLt_iff_data.mpr h)
      have hd2 : ¬ a.2.1.data < b.2.1.data := by
        rw [hp]
        intro h
        exact lt_irrefl _ (strLt_iff_data.mpr h)
      rw [if_neg hd, if_neg hd2]
      simp [hs, hp, lt_irrefl, membLe_iff_membLeB]
    · have h1 : ¬ b.2.1 < a.2.1 := not_lt_of_gt hp
      have h1d : ¬ b.2.1.data < a.2.1.data := fun h => h1 (strLt_iff_data.mpr h)
      rw [if_neg h1d, if_pos (strLt_iff_data.mp hp)]
      simp [hs, h1, ne_of_gt hp]
  · have h1 : ¬ b.1 < a.1 := not_lt_of_gt hs
    simp [h1, hs, ne_of_gt hs]

instance : DecidableRel candGe := fun a b =>
  decidable_of_iff (candGeB a b = true) (candGe_iff_candGeB a b).symm

instance : IsTotal Cand candGe :=
  ⟨fun a b => le_total (candKey b) (candKey a)⟩

instance : IsTrans Cand candGe :=
  ⟨fun _ _ _ h1 h2 => le_trans h2 h1⟩

/-- `SymbolIndex.symbol_scores` (index.py lines 152-182): pool the candidates
of a depth-first walk over the whole tree (root scale `1.0`), then sort in
reverse (descending full-tuple) order.  `insertionSort` by the reflexive
total order `candGe` computes the same list as Python's stable reverse sort,
because `candGe` is antisymmetric up to equality of the tuples. -/
def symbolScores (tree : Node) (symbol : String) : List Cand :=
  List.insertionSort candGe (walkNode (pySplitDot symbol) tree [] 1)


/-- The list of declared export names (`set(tree._exports)`). -/
def exportKeys (e : List (String × ℚ)) : List String := e.map Prod.fst

/-- `self._exports[name] = score` (dict update: replace or append). -/
def setExport : List (String × ℚ) → String → ℚ → List (String × ℚ)
  | [], name, s => [(name, s)]
  | (k, v) :: r, name, s =>
      if k = name then (k, s) :: r else (k, v) :: setExport r name s

/-- `SymbolIndex.add_explicit_export` (index.py lines 200-201). -/
def Node.addExplicitExport : Node → String → ℚ → Node
  | .mk sc loc ex ch, name, s => .mk sc loc (setExport ex name s) ch

/-- Deletion of every child key outside the export set:
`for key in set(tree._tree) - set(tree._exports): del tree._tree[key]`. -/
def Children.filterExports (ex : List String) : Children → Children
  | .nil => .nil
  | .leafc k v r =>
      if k ∈ ex then .leafc k v (r.filterExports ex) else r.filterExports ex
  | .subc k t r =>
      if k ∈ ex then .subc k t (r.filterExports ex) else r.filterExports ex

/-- The pruning performed after the `yield` in `SymbolIndex.enter`
(index.py lines 247-250): only when `tree._exports` is non-empty. -/
def pruneNode : Node → Node
  | .mk sc loc ex ch =>
      if ex = [] then .mk sc loc ex ch
      else .mk sc loc ex (ch.filterExports (exportKeys ex))

/-- `self._tree[name] = tree` (dict update: replace in place or append). -/
def Children.setSub (name : String) (t : Node) : Children → Children
  | .nil => .subc name t .nil
  | .leafc k v r => if k = name then .subc k t r else .leafc k v (r.setSub name t)
  | .subc k u r => if k = name then .subc k t r else .subc k u (r.setSub name t)

/-- The subtree the `with`-body receives: the existing child node when
`self._tree.get(name)` is a `SymbolIndex`, otherwise a freshly constructed
node (a leaf slot is overwritten), per index.py lines 239-241. -/
def enterTarget (p : Node) (name : String) (loc : String) (sc : ℚ) : Node :=
  match p.children.lookupc name with
  | some (Sum.inr t) => t
  | _ => .mk sc loc [] .nil

/-- `SymbolIndex.enter` (index.py lines 234-250) as a Python
`@contextmanager`: `body` is the `with`-block, returning the subtree state it
produced together with the exception it raised, if any (mutations made before
a raise persist, because the body mutates the shared child node in place).
The code after `yield` is not protected by `try`/`finally`: when the body
raises, `gen.throw` re-raises at the `yield` and the export pruning is
skipped; on normal exit the pruning runs once.  The `_PACKAGE_ALIASES`
clause (lines 242-245) fires only when the new node's absolute dotted path is
exactly `posixpath`; it is modelled at the root level in the deserializer
below and cannot fire for the generic parent considered here. -/
def enterRun (p : Node) (name : String) (loc : String) (sc : ℚ)
    (body : Node → Node × Option PyErr) : Node × Option PyErr :=
  let r := body (enterTarget p name loc sc)
  match r.2 with
  | some e => (p.withChildren (p.children.setSub name r.1), some e)
  | none => (p.withChildren (p.children.setSub name (pruneNode r.1)), none)


/-! ## Helper lemmas and concrete trees -/

/-- Structural induction over `Children` alone. -/
theorem Children.inducOn {motive : Children → Prop} (c : Children)
    (hnil : motive .nil)
    (hleaf : ∀ k v r, motive r → motive (.leafc k v r))
    (hsub : ∀ k t r, motive r → motive (.subc k t r)) : motive c :=
  match c with
  | .nil => hnil
  | .leafc k v r => hleaf k v r (inducOn r hnil hleaf hsub)
  | .subc k t r => hsub k t r (inducOn r hnil hleaf hsub)
termination_by structural c

theorem findIdx_none_of_no_marker (sp : List (Option String))
    (h : Option.none ∉ sp) : sp.findIdx? Option.isNone = none := by
  induction sp with
  | nil => rfl
  | cons a l ih =>
    cases a with
    | none => exact absurd (List.mem_cons_self _ _) h
    | some s =>
      have hl : Option.none ∉ l := fun hm => h (List.mem_cons_of_mem _ hm)
      simp [List.findIdx?_cons, ih hl]

theorem candParts_no_marker (path : List String) (sp : List (Option String))
    (h : Option.none ∉ sp) :
    candParts path sp = (dotJoin (path ++ sp.reduceOption), none) := by
  unfold candParts
  rw [findIdx_none_of_no_marker sp h]

/-- The candidate appended at a node itself by `score_walk`, whenever the raw
`_score_key` score clears the `0.1` noise threshold. -/
theorem mem_walkNode_self (fullKey : List String) (tree : Node)
    (path : List String) (scale : ℚ)
    (ht : (scoreKey tree fullKey).2 > 1/10) :
    ((scoreKey tree fullKey).2 * scale,
      (candParts path (scoreKey tree fullKey).1).1,
      (candParts path (scoreKey tree fullKey).1).2)
      ∈ walkNode fullKey tree path scale := by
  obtain ⟨sc, loc, ex, ch⟩ := tree
  rw [walkNode]
  rw [if_pos ht]
  exact List.mem_append_left _ (List.mem_singleton_self _)

/-- A module `os` (score 1) holding a single leaf `getcwd` (score 1). -/
def osNodeC1 : Node := .mk 1 "L" [] (.leafc "getcwd" 1 .nil)

/-- A root whose only child is the module `os`. -/
def treeC1 : Node := .mk 1 "3" [] (.subc "os" osNodeC1 .nil)

/-- A root with two modules `a` and `b`, each holding a leaf `x`. -/
def treeC2 : Node :=
  .mk 1 "3" []
    (.subc "a" (.mk 1 "L" [] (.leafc "x" 1 .nil))
      (.subc "b" (.mk 1 "L" [] (.leafc "x" 1 .nil)) .nil))

/-! ## C1 -/

unseal Rat.add Rat.mul Rat.sub Rat.inv Rat.ofScientific in
/-- C1 is false as stated: querying `os.unknown` against a tree holding the
module `os` (with leaf `getcwd` only) makes every branch stop without
reaching a leaf score — `_score_key` at the root returns the marker-free path
`[some "os"]` — yet the pooled candidate list is not empty: the branch whose
proper prefix `os` matched a nested subtree emits the candidate
`(1.0, "os", None)`. -/
theorem c1_counterexample :
    scoreKey treeC1 ["os", "unknown"] = ([some "os"], 1)
    ∧ symbolScores treeC1 "os.unknown" = [(1, "os", none)] := by
  constructor
  · decide
  · decide

/-- C1 (amended): a branch contributes zero only when its first segment
matches no child at all; whenever the walk stops without reaching a leaf
score (no `None` marker in the returned path) but the accumulated score of
the matched subtree prefix still exceeds the `0.1` threshold, the root-level
branch does emit the candidate `(score, matched-prefix-path, None)` into the
pooled list. -/
theorem c1_theorem (tree : Node) (symbol : String)
    (hnl : Option.none ∉ (scoreKey tree (pySplitDot symbol)).1)
    (ht : (scoreKey tree (pySplitDot symbol)).2 > 1/10) :
    ((scoreKey tree (pySplitDot symbol)).2,
      dotJoin (scoreKey tree (pySplitDot symbol)).1.reduceOption,
      Option.none) ∈ symbolScores tree symbol
    ∧ ∀ (k : String) (rest : List String),
        tree.children.lookupc k = none → scoreKey tree (k :: rest) = ([], 0) := by
  constructor
  · unfold symbolScores
    rw [List.mem_insertionSort]
    have h := mem_walkNode_self (pySplitDot symbol) tree [] 1 ht
    rw [candParts_no_marker _ _ hnl] at h
    simpa [mul_one] using h
  · intro k rest h
    simp [scoreKey, h]

unseal Rat.add Rat.mul Rat.sub Rat.inv Rat.ofScientific in
theorem c1_witness :
    ((scoreKey treeC1 (pySplitDot "os")).2,
      dotJoin (scoreKey treeC1 (pySplitDot "os")).1.reduceOption,
      Option.none) ∈ symbolScores treeC1 "os"
    ∧ ∀ (k : String) (rest : List String),
        treeC1.children.lookupc k = none → scoreKey treeC1 (k :: rest) = ([], 0) :=
  c1_theorem treeC1 "os" (by decide) (by decide)

/-! ## C2 -/

/-- The ordering asserted by the claim: descending score, ties in ascending
lexical order of module path, then member. -/
def specTieOrdered (l : List Cand) : Prop :=
  l.Pairwise (fun a b => b.1 < a.1 ∨ (b.1 = a.1 ∧
    (a.2.1 < b.2.1 ∨ (a.2.1 = b.2.1 ∧ membLe a.2.2 b.2.2))))

unseal Rat.add Rat.mul Rat.sub Rat.inv Rat.ofScientific in
/-- C2 is false as stated: on a tree with modules `a` and `b` each holding a
leaf `x`, the two candidates for `x` tie at score `0.9` and are returned with
module paths in descending order (`b` before `a`), because
`scores.sort(reverse=True)` reverses the full-tuple order. -/
theorem c2_counterexample :
    symbolScores treeC2 "x" = [(9/10, "b", some "x"), (9/10, "a", some "x")]
    ∧ ¬ specTieOrdered (symbolScores treeC2 "x") := by
  have h : symbolScores treeC2 "x"
      = [(9/10, "b", some "x"), (9/10, "a", some "x")] := by decide
  refine ⟨h, ?_⟩
  rw [h]
  intro hp
  rcases List.pairwise_cons.mp hp with ⟨h1, -⟩
  have h2 := h1 _ (List.mem_singleton_self _)
  rcases h2 with h2 | ⟨-, h3 | ⟨h4, -⟩⟩
  · exact lt_irrefl _ h2
  · exact (by decide : ¬ ("b".data < "a".data)) (strLt_iff_data.mp h3)
  · exact (by decide : ("b" : String) ≠ "a") h4

/-- C2 (amended): the list returned by `symbol_scores` is sorted descending
in the full Python tuple order `(score, module path, member)` — descending
score, and ties broken by descending (not ascending) lexical order of module
path and then member, with `None` below every string. -/
theorem c2_theorem (tree : Node) (symbol : String) :
    List.Sorted candGe (symbolScores tree symbol) :=
  List.sorted_insertionSort candGe _

/-! ## C3 and C10: `add` -/

/-- The slot stored under `name` after `add(name, s)`. -/
theorem lookupc_addc_self (c : Children) (name : String) (s : ℚ) :
    (c.addc name s).lookupc name
      = match c.lookupc name with
        | some (Sum.inl v) => some (Sum.inl (if s > v then s else v))
        | some (Sum.inr t) => some (Sum.inr t)
        | none => if s > 0 then some (Sum.inl s) else none := by
  induction c using Children.inducOn with
  | hnil =>
    by_cases hs : s > 0
    · simp [Children.addc, Children.lookupc, hs]
    · simp [Children.addc, Children.lookupc, hs]
  | hleaf k v r ih =>
    by_cases hk : k = name
    · subst hk
      by_cases hv : s > v
      · simp [Children.addc, Children.lookupc, hv]
      · simp [Children.addc, Children.lookupc, hv]
    · simp [Children.addc, Children.lookupc, hk, ih]
  | hsub k t r ih =>
    by_cases hk : k = name
    · subst hk
      simp [Children.addc, Children.lookupc]
    · simp [Children.addc, Children.lookupc, hk, ih]

/-- Other slots are untouched by `add(name, s)`. -/
theorem lookupc_addc_other (c : Children) (name : String) (s : ℚ) (k : String)
    (hk : k ≠ name) : (c.addc name s).lookupc k = c.lookupc k := by
  have hk2 : name ≠ k := Ne.symm hk
  induction c using Children.inducOn with
  | hnil =>
    by_cases hs : s > 0
    · simp [Children.addc, Children.lookupc, hs, hk2]
    · simp [Children.addc, Children.lookupc, hs]
  | hleaf k2 v r ih =>
    by_cases hn : k2 = name
    · subst hn
      by_cases hv : s > v
      · simp [Children.addc, Children.lookupc, hv, hk2]
      · simp [Children.addc, hv]
    · simp [Children.addc, Children.lookupc, hn, ih]
  | hsub k2 t r ih =>
    by_cases hn : k2 = name
    · subst hn
      simp [Children.addc]
    · simp [Children.addc, Children.lookupc, hn, ih]

theorem effScore_addc (c : Children) (name : String) (s : ℚ)
    (h : ∀ t, c.lookupc name ≠ some (Sum.inr t)) :
    (c.addc name s).effScore name = max (c.effScore name) s := by
  unfold Children.effScore
  rw [lookupc_addc_self]
  cases hc : c.lookupc name with
  | none =>
    by_cases hs : s > 0
    · simp [hs, max_eq_right (le_of_lt hs)]
    · simp [hs, max_eq_left (not_lt.mp hs)]
  | some e =>
    cases e with
    | inl v =>
      by_cases hv : s > v
      · simp [hv, max_eq_right (le_of_lt hv)]
      · simp [hv, max_eq_left (not_lt.mp hv)]
    | inr t => exact absurd hc (h t)

theorem addc_keeps_nonSub (c : Children) (name : String) (s : ℚ)
    (h : ∀ t, c.lookupc name ≠ some (Sum.inr t)) :
    ∀ t, (c.addc name s).lookupc name ≠ some (Sum.inr t) := by
  intro t
  rw [lookupc_addc_self]
  cases hc : c.lookupc name with
  | none =>
    by_cases hs : s > 0
    · simp [hs]
    · simp [hs]
  | some e =>
    cases e with
    | inl v =>
      by_cases hv : s > v
      · simp [hv]
      · simp [hv]
    | inr u => exact absurd hc (h u)

theorem addc_comm (c : Children) (name : String) (s1 s2 : ℚ) :
    (c.addc name s1).addc name s2 = (c.addc name s2).addc name s1 := by
  induction c using Children.inducOn with
  | hnil =>
    simp only [Children.addc]
    split_ifs <;> simp_all [Children.addc] <;> (try split_ifs) <;>
      first
      | rfl
      | (exfalso; linarith)
      | (congr 1; linarith)
      | (intro hx; linarith)
  | hleaf k v r ih =>
    by_cases hk : k = name
    · subst hk
      simp only [Children.addc, if_pos rfl]
      split_ifs <;> simp_all [Children.addc] <;> (try split_ifs) <;>
        first
        | rfl
        | (exfalso; linarith)
        | (congr 1; linarith)
        | (intro hx; linarith)
    · simp [Children.addc, hk, ih]
  | hsub k t r ih =>
    by_cases hk : k = name
    · subst hk
      simp [Children.addc]
    · simp [Children.addc, hk, ih]

unseal Rat.add Rat.mul Rat.sub Rat.inv Rat.ofScientific in
/-- C3 is false as stated: on a node already holding `a` at score `5`,
`add("a", 1)` followed by `add("a", 1)` leaves the stored score `5`, not
`max(1, 1) = 1`: the stored result is the maximum of the prior score and both
arguments, not of the two arguments alone. -/
theorem c3_counterexample :
    (((Children.leafc "a" 5 .nil).addc "a" 1).addc "a" 1).effScore "a" = 5
    ∧ (5 : ℚ) ≠ max 1 1 := by
  constructor
  · decide
  · norm_num

/-- C3 (amended): when the slot under `name` is not a subtree, calling
`add(name, s1)` then `add(name, s2)` stores (with an absent entry counting as
`0.0`) exactly `max` of the prior effective score and both arguments; the two
calls commute, and a single `add` never lowers the effective score. -/
theorem c3_theorem (c : Children) (name : String) (s1 s2 : ℚ)
    (h : ∀ t, c.lookupc name ≠ some (Sum.inr t)) :
    ((c.addc name s1).addc name s2).effScore name
        = max (c.effScore name) (max s1 s2)
    ∧ (c.addc name s1).addc name s2 = (c.addc name s2).addc name s1
    ∧ c.effScore name ≤ (c.addc name s1).effScore name := by
  refine ⟨?_, addc_comm c name s1 s2, ?_⟩
  · rw [effScore_addc _ _ _ (addc_keeps_nonSub c name s1 h),
      effScore_addc _ _ _ h, max_assoc]
  · rw [effScore_addc _ _ _ h]
    exact le_max_left _ _

unseal Rat.add Rat.mul Rat.sub Rat.inv Rat.ofScientific in
theorem c3_witness :
    (((Children.leafc "q" 2 .nil).addc "q" 1).addc "q" 3).effScore "q"
        = max ((Children.leafc "q" 2 .nil).effScore "q") (max 1 3)
    ∧ ((Children.leafc "q" 2 .nil).addc "q" 1).addc "q" 3
        = ((Children.leafc "q" 2 .nil).addc "q" 3).addc "q" 1
    ∧ (Children.leafc "q" 2 .nil).effScore "q"
        ≤ ((Children.leafc "q" 2 .nil).addc "q" 1).effScore "q" :=
  c3_theorem (Children.leafc "q" 2 .nil) "q" 1 3
    (fun t h => by simp [Children.lookupc] at h)

/-- C10: `add(name, s)` with `s` not above the effective stored score (an
absent entry counting as `0.0`) leaves the children dict unchanged — in
particular `s ≤ 0.0` never creates an entry — and `add` preserves strict
positivity of all directly stored leaf scores. -/
theorem c10_theorem (c : Children) (name : String) (s : ℚ) :
    (s ≤ c.effScore name → c.addc name s = c)
    ∧ (c.immLeavesPos → (c.addc name s).immLeavesPos) := by
  induction c using Children.inducOn with
  | hnil =>
    constructor
    · intro hs
      have : ¬ s > 0 := not_lt.mpr (by simpa [Children.effScore, Children.lookupc] using hs)
      simp [Children.addc, this]
    · intro hp
      by_cases hs : s > 0
      · simp [Children.addc, hs, Children.immLeavesPos]
      · simp [Children.addc, hs, Children.immLeavesPos]
  | hleaf k v r ih =>
    constructor
    · intro hs
      by_cases hk : k = name
      · subst hk
        have hv : s ≤ v := by simpa [Children.effScore, Children.lookupc] using hs
        simp [Children.addc, not_lt.mpr hv]
      · have hs2 : s ≤ r.effScore name := by
          simpa [Children.effScore, Children.lookupc, hk] using hs
        simp [Children.addc, hk, ih.1 hs2]
    · intro hp
      by_cases hk : k = name
      · subst hk
        by_cases hv : s > v
        · have h2 : (Children.leafc k s r).immLeavesPos := ⟨lt_trans hp.1 hv, hp.2⟩
          simpa [Children.addc, hv] using h2
        · simpa [Children.addc, hv] using hp
      · have h2 := ih.2 hp.2
        simpa [Children.addc, hk, Children.immLeavesPos, hp.1] using h2
  | hsub k t r ih =>
    constructor
    · intro hs
      by_cases hk : k = name
      · subst hk
        simp [Children.addc]
      · have hs2 : s ≤ r.effScore name := by
          simpa [Children.effScore, Children.lookupc, hk] using hs
        simp [Children.addc, hk, ih.1 hs2]
    · intro hp
      by_cases hk : k = name
      · subst hk
        simpa [Children.addc, Children.immLeavesPos] using hp
      · have := ih.2 (by exact hp)
        simpa [Children.addc, hk, Children.immLeavesPos] using this

unseal Rat.add Rat.mul Rat.sub Rat.inv Rat.ofScientific in
theorem c10_witness :
    ((Children.leafc "a" 1 .nil).addc "a" 1 = Children.leafc "a" 1 .nil)
    ∧ ((Children.leafc "a" 1 .nil).addc "a" 1).immLeavesPos :=
  ⟨(c10_theorem (Children.leafc "a" 1 .nil) "a" 1).1 (by decide),
   (c10_theorem (Children.leafc "a" 1 .nil) "a" 1).2 (by decide)⟩


/-! ## C5: `enter` and export pruning -/

theorem lookupc_filterExports (c : Children) (ex : List String) (k : String)
    (e : Sum ℚ Node) (h : (c.filterExports ex).lookupc k = some e) :
    k ∈ ex := by
  induction c using Children.inducOn with
  | hnil => simp [Children.filterExports, Children.lookupc] at h
  | hleaf k2 v r ih =>
    by_cases hm : k2 ∈ ex
    · rw [Children.filterExports, if_pos hm] at h
      rw [Children.lookupc] at h
      by_cases hk : k2 = k
      · exact hk ▸ hm
      · exact ih (by simpa [hk] using h)
    · rw [Children.filterExports, if_neg hm] at h
      exact ih h
  | hsub k2 t r ih =>
    by_cases hm : k2 ∈ ex
    · rw [Children.filterExports, if_pos hm] at h
      rw [Children.lookupc] at h
      by_cases hk : k2 = k
      · exact hk ▸ hm
      · exact ih (by simpa [hk] using h)
    · rw [Children.filterExports, if_neg hm] at h
      exact ih h

/-- The body run inside `with self.enter('m') as subtree:` for the C5
counterexample: it stores a child `a`, declares the explicit export `b`, and
then raises. -/
def bodyC5 (t : Node) : Node × Option PyErr :=
  ((t.add "a" 1).addExplicitExport "b" 1, some .userError)

def parentC5 : Node := .mk 1 "L" [] .nil

unseal Rat.add Rat.mul Rat.sub Rat.inv Rat.ofScientific in
/-- C5 is false as stated: when the populating logic inside the scope fails
with an exception, the pruning step does not run.  Here the scope declared
the explicit export `b` and stored the child `a`; after the exceptional exit
the child `a` — which is not in the export set — is still present, because
the code after `yield` in the `@contextmanager` is skipped when the body
raises. -/
theorem c5_counterexample :
    enterRun parentC5 "m" "L" 1 bodyC5
      = (Node.mk 1 "L" []
           (.subc "m" (Node.mk 1 "L" [("b", 1)] (.leafc "a" 1 .nil)) .nil),
         some PyErr.userError)
    ∧ "a" ∉ exportKeys [("b", (1 : ℚ))] := by
  constructor
  · rfl
  · decide

/-- C5 (amended): the pruning step runs exactly once, but only when the scope
exits normally: on normal exit every child key outside a non-empty export set
is deleted, while on an exceptional exit the subtree is left exactly as the
body produced it (no pruning) and the exception propagates. -/
theorem c5_theorem (p : Node) (name loc : String) (sc : ℚ)
    (body : Node → Node × Option PyErr) (t1 : Node) :
    (body (enterTarget p name loc sc) = (t1, none) →
       enterRun p name loc sc body
         = (p.withChildren (p.children.setSub name (pruneNode t1)), none)
       ∧ ∀ k e, t1.exports ≠ [] →
           (pruneNode t1).children.lookupc k = some e →
           k ∈ exportKeys t1.exports)
    ∧ ∀ err, body (enterTarget p name loc sc) = (t1, some err) →
        enterRun p name loc sc body
          = (p.withChildren (p.children.setSub name t1), some err) := by
  constructor
  · intro hb
    constructor
    · unfold enterRun
      rw [hb]
    · intro k e hex h
      obtain ⟨s1, l1, e1, c1⟩ := t1
      rw [pruneNode] at h
      rw [if_neg (by simpa [Node.exports] using hex)] at h
      exact lookupc_filterExports _ _ _ _ (by simpa [Node.children] using h)
  · intro err hb
    unfold enterRun
    rw [hb]

unseal Rat.add Rat.mul Rat.sub Rat.inv Rat.ofScientific in
theorem c5_witness :
    (enterRun parentC5 "m" "L" 1
        (fun t => ((t.add "x" 1).addExplicitExport "x" 1, none))
      = (parentC5.withChildren (parentC5.children.setSub "m"
          (pruneNode ((enterTarget parentC5 "m" "L" 1 |>.add "x" 1).addExplicitExport "x" 1))),
         none))
    ∧ ∀ k e,
        ((enterTarget parentC5 "m" "L" 1 |>.add "x" 1).addExplicitExport "x" 1).exports ≠ [] →
        (pruneNode ((enterTarget parentC5 "m" "L" 1 |>.add "x" 1).addExplicitExport "x" 1)).children.lookupc k
          = some e →
        k ∈ exportKeys ((enterTarget parentC5 "m" "L" 1 |>.add "x" 1).addExplicitExport "x" 1).exports :=
  (c5_theorem parentC5 "m" "L" 1
      (fun t => ((t.add "x" 1).addExplicitExport "x" 1, none))
      ((enterTarget parentC5 "m" "L" 1 |>.add "x" 1).addExplicitExport "x" 1)).1
    rfl

/-! ## C9: the `BLACKLIST_RE` test-path filter -/

/-- `\w` for the byte strings handled here (`re` without `re.UNICODE`):
ASCII letters, digits and underscore. -/
def isWordChar (c : Char) : Bool := c.isAlphanum || c = '_'

/-- Does `test` start (case-insensitively, `re.I`) at the head of `l`? -/
def testAt : List Char → Bool
  | c0 :: c1 :: c2 :: c3 :: _ =>
      c0.toLower = 't' && c1.toLower = 'e' && c2.toLower = 's' && c3.toLower = 't'
  | _ => false

/-- A word boundary lies here: end of input or a non-word character next.
(The character before is a word character in every use below.) -/
def boundaryAt : List Char → Bool
  | [] => true
  | c :: _ => !(isWordChar c)

/-- The second alternative `test[s]?\b` of `BLACKLIST_RE` matched at this
position: `test` followed by a boundary, or `tests` followed by one. -/
def alt2At (l : List Char) : Bool :=
  testAt l &&
    (boundaryAt (l.drop 4) ||
      (match l.drop 4 with
       | s :: rest => s.toLower = 's' && boundaryAt rest
       | [] => false))

/-- Boundary before the current position: start of string or a non-word
previous character (the first matched character `t` is a word character). -/
def boundaryBefore : Option Char → Bool
  | none => true
  | some c => !(isWordChar c)

/-- `BLACKLIST_RE.search`: try `\btest[s]?` or `test[s]?\b` at every
position, carrying the previous character for the `\b` look-behind.
`BLACKLIST_RE = re.compile(r'\btest[s]?|test[s]?\b', re.I)` (index.py 21). -/
def blScanAux (prev : Option Char) : List Char → Bool
  | [] => false
  | c :: rest =>
      (boundaryBefore prev && testAt (c :: rest)) || alt2At (c :: rest)
        || blScanAux (some c) rest

def blacklistSearch (s : String) : Bool := blScanAux none s.data

/-- `SymbolIndex.index_file` (index.py lines 99-104): a blacklisted filename
returns at once, otherwise the module subtree is entered (score `1.0`) and
the indexing body runs on it. -/
def indexFile (tree : Node) (module filename : String) (loc : String)
    (body : Node → Node × Option PyErr) : Node × Option PyErr :=
  if blacklistSearch filename then (tree, none)
  else enterRun tree module loc 1 body

/-- Split a character list at every `/`. -/
def splitSlashSegs (acc : List Char) : List Char → List (List Char)
  | [] => [acc.reverse]
  | c :: rest =>
      if c = '/' then acc.reverse :: splitSlashSegs [] rest
      else splitSlashSegs (c :: acc) rest

/-- The claim's reading of the blacklist: some whole path segment equals
`test` or `tests`, case-insensitively. -/
def hasTestSegment (s : String) : Bool :=
  (splitSlashSegs [] s.data).any (fun seg =>
    seg.map Char.toLower = ['t', 'e', 's', 't']
      || seg.map Char.toLower = ['t', 'e', 's', 't', 's'])

unseal Rat.add Rat.mul Rat.sub Rat.inv Rat.ofScientific in
/-- C9 is false as stated: `latest.py` has no whole path segment equal to
`test`/`tests` — the letters only occur inside the longer word `latest` —
yet `BLACKLIST_RE.search` matches (the occurrence of `test` inside `latest`
ends at a word boundary, satisfying `test[s]?\b`), so `index_file` skips the
path entirely instead of indexing it. -/
theorem c9_counterexample :
    blacklistSearch "latest.py" = true
    ∧ hasTestSegment "latest.py" = false
    ∧ indexFile treeC1 "latest" "latest.py" "L" (fun t => (t, none))
        = (treeC1, none) := by
  refine ⟨by decide, by decide, ?_⟩
  rw [indexFile, if_pos (by decide)]

/-- The previous character seen from position `i`. -/
def prevAt (prev : Option Char) (l : List Char) : ℕ → Option Char
  | 0 => prev
  | i + 1 => l[i]?

theorem blScanAux_iff (l : List Char) : ∀ prev : Option Char,
    (blScanAux prev l = true ↔
      ∃ i, ((boundaryBefore (prevAt prev l i) && testAt (l.drop i))
              || alt2At (l.drop i)) = true) := by
  induction l with
  | nil =>
    intro prev
    simp only [blScanAux]
    constructor
    · intro h
      cases h
    · rintro ⟨i, hi⟩
      simp [testAt, alt2At, List.drop_nil] at hi
  | cons c rest ih =>
    intro prev
    simp only [blScanAux, Bool.or_eq_true]
    constructor
    · rintro (h | h)
      · exact ⟨0, by simpa [prevAt] using h⟩
      · obtain ⟨i, hi⟩ := (ih (some c)).mp h
        refine ⟨i + 1, ?_⟩
        cases i with
        | zero => simpa [prevAt] using hi
        | succ j => simpa [prevAt] using hi
    · rintro ⟨i, hi⟩
      cases i with
      | zero =>
        left
        simpa [prevAt] using hi
      | succ j =>
        right
        refine (ih (some c)).mpr ⟨j, ?_⟩
        cases j with
        | zero => simpa [prevAt] using hi
        | succ j2 => simpa [prevAt] using hi

/-- C9 (amended): a path is skipped iff it contains, case-insensitively, an
occurrence of `test` that begins at a word boundary (`\btest[s]?`), or an
occurrence of `test`/`tests` that ends at one (`test[s]?\b`).  Whole
segments `test`/`tests` are therefore skipped, but so are segments such as
`testing` or `latest`; and whenever the pattern matches, `index_file`
returns without touching the tree. -/
theorem c9_theorem (s : String) :
    (blacklistSearch s = true ↔
      ∃ i, ((boundaryBefore (prevAt none s.data i) && testAt (s.data.drop i))
              || alt2At (s.data.drop i)) = true)
    ∧ (blacklistSearch s = true →
        ∀ (t : Node) (module loc : String) (body : Node → Node × Option PyErr),
          indexFile t module s loc body = (t, none)) := by
  constructor
  · exact blScanAux_iff s.data none
  · intro h t module loc body
    rw [indexFile, if_pos h]

theorem c9_witness :
    indexFile treeC1 "util" "tests/util.py" "L" (fun t => (t, none))
      = (treeC1, none) :=
  ( c9_theorem "tests/util.py").2 (by decide) treeC1 "util" "L" (fun t => (t, none))

/-! ## importer.py: the `Imports` accumulator -/

/-- The `Imports` accumulator (importer.py lines 19-24): plain imports, the
`defaultdict(list)` of from-imports in first-insertion order, and the
inclusive line span of the original import block with its sentinels
`first_line = 9999`, `last_line = 0`. -/
structure Imports where
  imports : List (String × Option String)
  importsFrom : List (String × List (String × Option String))
  firstLine : ℕ
  lastLine : ℕ

def emptyImports : Imports := ⟨[], [], 9999, 0⟩

/-- `Imports._update_line_nos` (importer.py 34-38). -/
def updateLineNos (imp : Imports) (lineNo : Option ℕ) : Imports :=
  match lineNo with
  | none => imp
  | some n =>
      { imp with firstLine := min imp.firstLine n, lastLine := max imp.lastLine n }

/-- `Imports.add_import` (importer.py 26-28). -/
def addImport (imp : Imports) (name : String) (al : Option String)
    (lineNo : Option ℕ) : Imports :=
  updateLineNos { imp with imports := imp.imports ++ [(name, al)] } lineNo

/-- `self.imports_from[module].append((name, alias))`: append to the module's
group, creating the group at the end on first use (`defaultdict(list)`). -/
def addImportFromGroups :
    List (String × List (String × Option String)) → String →
      (String × Option String) → List (String × List (String × Option String))
  | [], m, e => [(m, [e])]
  | (k, es) :: r, m, e =>
      if k = m then (k, es ++ [e]) :: r else (k, es) :: addImportFromGroups r m e

/-- `Imports.add_import_from` (importer.py 30-32). -/
def addImportFrom (imp : Imports) (module name : String) (al : Option String)
    (lineNo : Option ℕ) : Imports :=
  updateLineNos
    { imp with importsFrom := addImportFromGroups imp.importsFrom module (name, al) }
    lineNo

/-- Python 2 ascending order on `(name, alias)` tuples (`self.imports.sort()`),
`None` below every string. -/
def impLe (a b : String × Option String) : Prop :=
  toLex (a.1, membBot a.2) ≤ toLex (b.1, membBot b.2)

def impLeB (a b : String × Option String) : Bool :=
  if a.1.data < b.1.data then true
  else if b.1.data < a.1.data then false
  else membLeB a.2 b.2

theorem impLe_iff_impLeB (a b : String × Option String) :
    impLe a b ↔ impLeB a b = true := by
  unfold impLe impLeB
  rw [Prod.Lex.le_iff]
  rcases lt_trichotomy a.1 b.1 with hp | hp | hp
  · simp [hp, strLt_iff_data.mp hp]
  · have hd : ¬ a.1.data < b.1.data := by
      rw [hp]
      intro h
      exact lt_irrefl _ (strLt_iff_data.mpr h)
    have hd2 : ¬ b.1.data < a.1.data := by
      rw [hp]
      intro h
      exact lt_irrefl _ (strLt_iff_data.mpr h)
    rw [if_neg hd, if_neg hd2]
    simp [hp, lt_irrefl, membBot_le_iff, membLe_iff_membLeB]
  · have h1 : ¬ a.1 < b.1 := not_lt_of_gt hp
    have h1d : ¬ a.1.data < b.1.data := fun h => h1 (strLt_iff_data.mpr h)
    rw [if_neg h1d, if_pos (strLt_iff_data.mp hp)]
    simp [h1, ne_of_gt hp]

instance : DecidableRel impLe := fun a b =>
  decidable_of_iff (impLeB a b = true) (impLe_iff_impLeB a b).symm

instance : IsTotal (String × Option String) impLe :=
  ⟨fun a b => le_total (toLex (a.1, membBot a.2)) (toLex (b.1, membBot b.2))⟩

instance : IsTrans (String × Option String) impLe :=
  ⟨fun _ _ _ h1 h2 => le_trans h1 h2⟩

/-- `sorted(self.imports_from.iteritems())`: groups ordered by module name
(module names are unique in the accumulator). -/
def grpLe (a b : String × List (String × Option String)) : Prop := a.1 ≤ b.1

def grpLeB (a b : String × List (String × Option String)) : Bool :=
  !(decide (b.1.data < a.1.data))

theorem grpLe_iff_grpLeB (a b : String × List (String × Option String)) :
    grpLe a b ↔ grpLeB a b = true := by
  unfold grpLe grpLeB
  rw [strLe_iff_data]
  simp

instance : DecidableRel grpLe := fun a b =>
  decidable_of_iff (grpLeB a b = true) (grpLe_iff_grpLeB a b).symm

instance : IsTotal (String × List (String × Option String)) grpLe :=
  ⟨fun a b => le_total a.1 b.1⟩

instance : IsTrans (String × List (String × Option String)) grpLe :=
  ⟨fun _ _ _ h1 h2 => le_trans h1 h2⟩

def renderImport : String × Option String → String
  | (n, none) => "import " ++ n
  | (n, some al) => "import " ++ n ++ " as " ++ al

def renderFromArg : String × Option String → String
  | (n, none) => n
  | (n, some al) => n ++ " as " ++ al

def renderFrom : String × List (String × Option String) → String
  | (m, args) => "from " ++ m ++ " import " ++ String.intercalate ", " (args.map renderFromArg)

/-- `Imports.imports_as_source` (importer.py 40-56) as the list of rendered
lines: sorted plain imports first, then from-import groups sorted by module,
members in insertion order.  The source writes these lines into a buffer and
returns `out.getvalue().strip().splitlines()`; every written line is
non-empty with no surrounding whitespace, so that equals this list. -/
def importsAsSource (imp : Imports) : List String :=
  (List.insertionSort impLe imp.imports).map renderImport
    ++ (List.insertionSort grpLe imp.importsFrom).map renderFrom

/-- Python's `source.splitlines()` for `\n`-separated text: no entry for a
trailing newline, `''` gives `[]`. -/
def splitNl (acc : List Char) : List Char → List String
  | [] => [String.mk acc.reverse]
  | c :: rest =>
      if c = '\n' then
        String.mk acc.reverse ::
          (match rest with
           | [] => []
           | _ :: _ => splitNl [] rest)
      else splitNl (c :: acc) rest

def pySplitLines (s : String) : List String :=
  match s.data with
  | [] => []
  | l => splitNl [] l

/-- Python list slice assignment `lines[a:b] = x` for non-negative `a`, `b`:
both indices clip to the list length, an inverted span inserts at the
(clipped) start. -/
def pySliceAssign (l : List String) (a b : ℕ) (x : List String) : List String :=
  let a2 := min a l.length
  let b2 := min b l.length
  l.take a2 ++ x ++ l.drop (max a2 b2)

/-- `Imports.replace_imports` (importer.py 58-61):

    lines = source.splitlines()
    lines[self.first_line - 1:self.last_line] = self.imports_as_source()
    return '\n'.join(lines)

Line numbers are AST `lineno`s (at least 1) or the 9999 sentinel, so the
natural subtraction `first_line - 1` is exact. -/
def replaceImports (imp : Imports) (source : String) : String :=
  String.intercalate "\n"
    (pySliceAssign (pySplitLines source) (imp.firstLine - 1) imp.lastLine
      (importsAsSource imp))

/-- The resolution loop of `update_imports` (importer.py 72-81): symbols with
an empty score list are skipped; for any non-empty score list the statement
`_, module = scores[0]` unpacks the 3-tuple `(score, package, reference)`
returned by `SymbolIndex.symbol_scores` into two names and raises
`ValueError: too many values to unpack` before anything is recorded. -/
def updateImportsLoop (index : Node) : Imports → List String → Except PyErr Imports
  | imp, [] => .ok imp
  | imp, sym :: rest =>
      match symbolScores index sym with
      | [] => updateImportsLoop index imp rest
      | _ :: _ => .error .valueError

/-- `update_imports(src, st, symbols, index)` (importer.py 68-83).
`parsedImports` is the accumulator filled by `ImportFinder.visit(st)` — the
parsed import statements of the AST — supplied directly since the AST
visitor is plain plumbing around `add_import`/`add_import_from`. -/
def updateImports (source : String) (parsedImports : Imports)
    (symbols : List String) (index : Node) : Except PyErr String :=
  (updateImportsLoop index parsedImports symbols).map
    (fun imp => replaceImports imp source)

/-! ## C6: resolution inside `update_imports` -/

unseal Rat.add Rat.mul Rat.sub Rat.inv Rat.ofScientific in
/-- C6: when the scorer returns no candidate the reference is skipped without
an import and without an error — but as soon as any candidate exists,
`_, module = scores[0]` unpacks the 3-tuple `(score, package, reference)`
into two names and raises `ValueError`, so no import is ever synthesized:
the code contradicts the claimed (and tested) behaviour. -/
theorem c6_theorem :
    updateImports "print x" emptyImports ["zzz"] treeC1 = .ok "print x"
    ∧ updateImports "print x" emptyImports ["os.unknown"] treeC1
        = .error .valueError := by
  constructor
  · rfl
  · rfl

/-! ## C7: dropping unreferenced imports (spec-modelled) -/

/-- The name an import entry binds: its alias when one was given, otherwise
the imported (member) name itself. -/
def boundName : String × Option String → String
  | (n, none) => n
  | (_, some al) => al

/-- Modelled from the spec: step 1 of `update_imports` in
`importmagic/importer.py`, which is not under `src/` (only its tests,
`src/importmagic/importer_test.py`, are); `src/importer.py` is an earlier
variant without the unreferenced parameter.  Spec §4.5: "Drop any existing
accumulated import entries whose bound name appears in the unreferenced
set."  Groups emptied by the drop disappear from the rendered block. -/
def dropUnreferenced (imp : Imports) (unref : List String) : Imports :=
  { imp with
    imports := imp.imports.filter (fun e => decide (boundName e ∉ unref)),
    importsFrom :=
      (imp.importsFrom.map
          (fun g => (g.1, g.2.filter (fun e => decide (boundName e ∉ unref))))).filter
        (fun g => !g.2.isEmpty) }

/-- C7: after the drop, no accumulated entry binds an unreferenced name, and
every line of the rendered import block comes from a retained entry. -/
theorem c7_theorem (imp : Imports) (unref : List String) (n : String)
    (h : n ∈ unref) :
    (∀ e ∈ (dropUnreferenced imp unref).imports, boundName e ≠ n)
    ∧ (∀ g ∈ (dropUnreferenced imp unref).importsFrom,
        ∀ e ∈ g.2, boundName e ≠ n)
    ∧ (∀ line ∈ importsAsSource (dropUnreferenced imp unref),
        (∃ e ∈ (dropUnreferenced imp unref).imports, line = renderImport e)
        ∨ (∃ g ∈ (dropUnreferenced imp unref).importsFrom,
            line = renderFrom g)) := by
  refine ⟨?_, ?_, ?_⟩
  · intro e he
    have h2 := (List.mem_filter.mp he).2
    intro hb
    exact (of_decide_eq_true h2) (hb ▸ h)
  · intro g hg e he
    have h2 := List.mem_filter.mp hg
    obtain ⟨g0, hg0, hmap⟩ := List.mem_map.mp h2.1
    have hme : e ∈ g0.2.filter (fun e => decide (boundName e ∉ unref)) := by
      rw [← hmap] at he
      exact he
    have h3 := (List.mem_filter.mp hme).2
    intro hb
    exact (of_decide_eq_true h3) (hb ▸ h)
  · intro line hline
    rcases List.mem_append.mp hline with hl | hl
    · obtain ⟨e, he, hr⟩ := List.mem_map.mp hl
      exact Or.inl ⟨e, List.mem_insertionSort impLe |>.mp he, hr.symm⟩
    · obtain ⟨g, hg, hr⟩ := List.mem_map.mp hl
      exact Or.inr ⟨g, List.mem_insertionSort grpLe |>.mp hg, hr.symm⟩

theorem c7_witness :
    (∀ e ∈ (dropUnreferenced (addImport emptyImports "sys" none (some 1))
        ["sys"]).imports, boundName e ≠ "sys")
    ∧ (∀ g ∈ (dropUnreferenced (addImport emptyImports "sys" none (some 1))
        ["sys"]).importsFrom, ∀ e ∈ g.2, boundName e ≠ "sys")
    ∧ (∀ line ∈ importsAsSource (dropUnreferenced
          (addImport emptyImports "sys" none (some 1)) ["sys"]),
        (∃ e ∈ (dropUnreferenced (addImport emptyImports "sys" none (some 1))
            ["sys"]).imports, line = renderImport e)
        ∨ (∃ g ∈ (dropUnreferenced (addImport emptyImports "sys" none (some 1))
            ["sys"]).importsFrom, line = renderFrom g)) :=
  c7_theorem (addImport emptyImports "sys" none (some 1)) ["sys"] "sys"
    (List.mem_singleton_self _)

/-! ## C8: splicing with no prior imports -/

def impC8 : Imports := addImport emptyImports "os" none none

/-- C8 is false as stated: with no prior import statements the line span
keeps its sentinels `9999`/`0`, and the slice assignment
`lines[9998:0] = block` clips `9998` to the end of the file, so the rendered
block is appended after the last line — not inserted before the first
executable statement — and no blank-line separator is produced. -/
theorem c8_counterexample :
    replaceImports impC8 "print x" = "print x\nimport os"
    ∧ replaceImports impC8 "print x" ≠ "import os\n\nprint x" := by
  constructor
  · rfl
  · decide

/-- C8 (amended): when no prior imports were recorded (sentinel span
`first_line = 9999`, `last_line = 0`) and the source has at most 9998 lines,
the rewrite appends the rendered import block after the last line of the
source, leaving every original line unchanged and in order, with no
blank-line separator. -/
theorem c8_theorem (imp : Imports) (source : String)
    (h1 : imp.firstLine = 9999) (h2 : imp.lastLine = 0)
    (h3 : (pySplitLines source).length ≤ 9998) :
    replaceImports imp source
      = String.intercalate "\n" (pySplitLines source ++ importsAsSource imp) := by
  unfold replaceImports pySliceAssign
  rw [h1, h2]
  have ha : min (9999 - 1) (pySplitLines source).length
      = (pySplitLines source).length := min_eq_right h3
  have hb : min 0 (pySplitLines source).length = 0 := Nat.zero_min _
  rw [ha, hb]
  simp [List.take_length, List.drop_length]

theorem c8_witness :
    replaceImports impC8 "print x"
      = String.intercalate "\n" (pySplitLines "print x" ++ importsAsSource impC8) :=
  c8_theorem impC8 "print x" rfl rfl (by decide)

/-! ## C4: serialization round-trip -/

deriving instance DecidableEq for Node, Children

mutual

/-- A JSON value of the index file.  `json.load` after `json.dumps` is the
identity on objects, strings and (reproducible) floats, so serialization is
modelled straight into the JSON value tree. -/
inductive Data : Type where
  | num (v : ℚ)
  | str (s : String)
  | obj (fields : Fields)

/-- The key/value items of a JSON object, in dict order (modelled as the
insertion order of the underlying dict). -/
inductive Fields : Type where
  | fnil
  | fcons (key : String) (val : Data) (rest : Fields)

end

deriving instance DecidableEq for Data, Fields

def Fields.appendF : Fields → Fields → Fields
  | .fnil, g => g
  | .fcons k v r, g => .fcons k v (r.appendF g)

/-- The two reserved attributes `JSONEncoder.default` adds to every node
(`_SERIALIZED_ATTRIBUTES`, index.py 54): `.score` and `.location`. -/
def metaFields (sc : ℚ) (loc : String) : Fields :=
  .fcons ".score" (.num sc) (.fcons ".location" (.str loc) .fnil)

mutual

/-- `JSONEncoder.default` (index.py 32-39) composed over the whole tree by
`json.dumps` (`SymbolIndex.serialize`, index.py 252-253): each node becomes
an object holding its children — leaves as numbers, subtrees as nested
objects — plus the reserved `.score`/`.location` keys. -/
def serializeNode (n : Node) : Data :=
  match n with
  | .mk sc loc _ ch => .obj ((serializeChildren ch).appendF (metaFields sc loc))
termination_by structural n

def serializeChildren (c : Children) : Fields :=
  match c with
  | .nil => .fnil
  | .leafc k v r => .fcons k (.num v) (serializeChildren r)
  | .subc k t r => .fcons k (serializeNode t) (serializeChildren r)
termination_by structural c

end

def findField (key : String) : Fields → Option Data
  | .fnil => none
  | .fcons k v r => if k = key then some v else findField key r

/-- `score = value.pop('.score', 1.0)`. -/
def scoreOf : Option Data → ℚ
  | some (.num v) => v
  | _ => 1

/-- `location = value.pop('.location', parent_location)`. -/
def locOf : Option Data → String → String
  | some (.str s), _ => s
  | _, d => d

mutual

/-- One `(key, value)` item of the `load` loop (`SymbolIndex.deserialize`,
index.py 72-81): a number is `tree.add(key, value)`; a string value fails the
`assert isinstance(value, float)`; a nested object is entered as a child node
with its popped `.score`/`.location` (defaults `1.0` / the parent location)
and loaded recursively, the `with`-exit pruning running on normal return
(loaded nodes declare no exports, so it never deletes anything). -/
def loadValue (tree : Node) (parentLoc key : String) : Data → Except String Node
  | .num v => .ok (tree.add key v)
  | .str _ => .error "AssertionError"
  | .obj fs =>
      match loadFields (enterTarget tree key (locOf (findField ".location" fs) parentLoc)
          (scoreOf (findField ".score" fs)))
          (locOf (findField ".location" fs) parentLoc) fs with
      | .error e => .error e
      | .ok sub1 =>
          .ok (tree.withChildren (tree.children.setSub key (pruneNode sub1)))
termination_by structural d => d

/-- The `for key, value in data.items()` loop of `load`.  JSON objects have
unique keys, so popping `.score`/`.location` before iterating equals
iterating while skipping those two keys. -/
def loadFields (tree : Node) (parentLoc : String) : Fields → Except String Node
  | .fnil => .ok tree
  | .fcons key value rest =>
      if key = ".score" ∨ key = ".location" then loadFields tree parentLoc rest
      else
        match loadValue tree parentLoc key value with
        | .error e => .error e
        | .ok tree2 => loadFields tree2 parentLoc rest
termination_by structural fs => fs

end

/-- `os.path.__name__` on the posix build platform: the single key of
`SymbolIndex._PACKAGE_ALIASES` (index.py 43-53). -/
def posixpathName : String := "posixpath"

/-- `alias = self.find('os.path'); alias._tree = tree._tree` rendered on
values: replace the children of the node at root path `os.path`.  (When the
path is missing the source would fail on `None`; during deserialization the
fresh tree always carries `os.path`.) -/
def setOsPathChildren (root : Node) (newCh : Children) : Node :=
  match root.children.lookupc "os" with
  | some (Sum.inr osN) =>
      match osN.children.lookupc "path" with
      | some (Sum.inr pN) =>
          root.withChildren (root.children.setSub "os"
            (osN.withChildren (osN.children.setSub "path" (pN.withChildren newCh))))
      | _ => root
  | _ => root

/-- The `load` loop over the root items, where `enter` can fire the
`_PACKAGE_ALIASES` clause (index.py 241-245): when a root child that is not
already a `SymbolIndex` is entered for an object value under the name
`posixpath`, the freshly created node's (empty) children dict becomes shared
with `os.path`.  With immutable values the sharing is rendered by clearing
`os.path` here and redirecting it to the fully loaded `posixpath` children in
`syncAlias` below; no deserialization step reads or writes through `os.path`
between the two points (root keys are unique and `os` precedes `posixpath`
in the serialized dict), so this computes the same tree as the shared dict. -/
def loadRootFields (root : Node) : Fields → Except String Node
  | .fnil => .ok root
  | .fcons key value rest =>
      if key = ".score" ∨ key = ".location" then loadRootFields root rest
      else
        let root1 :=
          match value with
          | .obj _ =>
              match root.children.lookupc key with
              | some (Sum.inr _) => root
              | _ =>
                  if key = posixpathName then setOsPathChildren root .nil else root
          | _ => root
        match loadValue root1 "L" key value with
        | .error e => .error e
        | .ok root2 => loadRootFields root2 rest

/-- Redirect `os.path` to the loaded `posixpath` children when the alias
fired (it fires exactly when the root data held an object under
`posixpath`, the fresh tree never containing that key beforehand). -/
def syncAlias (root : Node) : Node :=
  match root.children.lookupc posixpathName with
  | some (Sum.inr pp) => setOsPathChildren root pp.children
  | _ => root

/-- The tree built by `SymbolIndex.__init__` with no parent (index.py
56-68): `_merge_aliases` creates `os` (score 1, location `S`) holding `path`
(score 1.2, location `S`) — `PACKAGE_ALIASES` maps `os.path` to
`posixpath` with score boost 1.2 and `os.path.__name__ == 'posixpath'` on
the posix build platform — then two scoped `enter` calls append the empty
`__future__` (`F`) and `__builtin__` (`S`) nodes.  Root: score 1,
location `3`. -/
def freshTree : Node :=
  .mk 1 "3" []
    (.subc "os" (.mk 1 "S" [] (.subc "path" (.mk (6/5) "S" [] .nil) .nil))
      (.subc "__future__" (.mk 1 "F" [] .nil)
        (.subc "__builtin__" (.mk 1 "S" [] .nil) .nil)))

/-- `SymbolIndex.deserialize` (index.py 70-88): parse (modelled as the JSON
value itself), pop the root `.score`/`.location` (the skip in the loaders),
build a fresh tree, load the root items into it with parent location `L`,
and account for the `posixpath`/`os.path` dict sharing. -/
def deserialize (d : Data) : Except String Node :=
  match d with
  | .obj fs =>
      match loadRootFields freshTree fs with
      | .error e => .error e
      | .ok t => .ok (syncAlias t)
  | _ => .error "format"

mutual

/-- Erase every `_exports` dict: scoring and serialization read only scores,
locations and children, and deserialization rebuilds all exports empty. -/
def stripNode : Node → Node
  | .mk sc loc _ ch => .mk sc loc [] (stripChildren ch)
termination_by structural n => n

def stripChildren : Children → Children
  | .nil => .nil
  | .leafc k v r => .leafc k v (stripChildren r)
  | .subc k t r => .subc k (stripNode t) (stripChildren r)
termination_by structural c => c

end

mutual

/-- Well-formedness of a dict as the indexer builds it: keys unique and
distinct from the reserved `.score`/`.location`, every leaf score strictly
positive (`add` stores only positive scores), recursively. -/
def wfNode : Node → Bool
  | .mk _ _ _ ch => wfChildren ch
termination_by structural n => n

def wfChildren : Children → Bool
  | .nil => true
  | .leafc k v r =>
      decide (0 < v) && !(decide (k = ".score")) && !(decide (k = ".location"))
        && (r.lookupc k).isNone && wfChildren r
  | .subc k t r =>
      !(decide (k = ".score")) && !(decide (k = ".location"))
        && (r.lookupc k).isNone && wfNode t && wfChildren r
termination_by structural c => c

end

def osShapeOk : Children → Bool
  | .subc kp pN _ =>
      decide (kp = "path") && decide (pN.score = 6/5) && decide (pN.location = "S")
  | _ => false

/-- The value-level trace of the `posixpath`/`os.path` dict sharing in a tree
built by the indexer: when `posixpath` exists at the root, its children dict
is the `os.path` children dict. -/
def aliasOk (osN : Node) (rest : Children) : Bool :=
  match rest.lookupc posixpathName with
  | some (Sum.inr ppN) =>
      match osN.children with
      | .subc _ pN _ => decide (ppN.children = pN.children)
      | _ => false
  | _ => true

/-- A root as every tree built from `SymbolIndex()` has it: score 1,
location `3`, the children starting with the `os` (holding `path` first),
`__future__` and `__builtin__` nodes exactly as `__init__` creates them,
followed by arbitrary well-formed content, with the `posixpath` sharing
invariant. -/
def wellFormedRoot : Node → Bool
  | .mk sc loc _ (.subc k1 osN (.subc k2 fN (.subc k3 bN rest))) =>
      decide (sc = 1) && decide (loc = "3")
        && decide (k1 = "os") && decide (k2 = "__future__")
        && decide (k3 = "__builtin__")
        && decide (osN.score = 1) && decide (osN.location = "S")
        && osShapeOk osN.children
        && decide (fN.score = 1) && decide (fN.location = "F")
        && decide (bN.score = 1) && decide (bN.location = "S")
        && wfChildren (.subc k1 osN (.subc k2 fN (.subc k3 bN rest)))
        && aliasOk osN rest
  | _ => false

def appendC : Children → Children → Children
  | .nil, d => d
  | .leafc k v r, d => .leafc k v (appendC r d)
  | .subc k t r, d => .subc k t (appendC r d)

theorem appendC_nil (c : Children) : appendC c .nil = c := by
  induction c using Children.inducOn with
  | hnil => rfl
  | hleaf k v r ih => rw [appendC, ih]
  | hsub k t r ih => rw [appendC, ih]

theorem appendC_assoc (a b c : Children) :
    appendC (appendC a b) c = appendC a (appendC b c) := by
  induction a using Children.inducOn with
  | hnil => rfl
  | hleaf k v r ih => rw [appendC, appendC, appendC, ih]
  | hsub k t r ih => rw [appendC, appendC, appendC, ih]

theorem lookupc_appendC (a b : Children) (k : String) :
    (appendC a b).lookupc k
      = match a.lookupc k with
        | some e => some e
        | none => b.lookupc k := by
  induction a using Children.inducOn with
  | hnil => simp [appendC, Children.lookupc]
  | hleaf k2 v r ih =>
    by_cases hk : k2 = k
    · simp [appendC, Children.lookupc, hk]
    · simp [appendC, Children.lookupc, hk, ih]
  | hsub k2 t r ih =>
    by_cases hk : k2 = k
    · simp [appendC, Children.lookupc, hk]
    · simp [appendC, Children.lookupc, hk, ih]

theorem lookupc_appendC_left (a b : Children) (k : String) (e : Sum ℚ Node)
    (h : a.lookupc k = some e) : (appendC a b).lookupc k = some e := by
  rw [lookupc_appendC, h]

theorem lookupc_appendC_right (a b : Children) (k : String)
    (h : a.lookupc k = none) : (appendC a b).lookupc k = b.lookupc k := by
  rw [lookupc_appendC, h]

theorem setSub_appendC_left (a b : Children) (k : String) (n : Node)
    (e : Sum ℚ Node) (h : a.lookupc k = some e) :
    (appendC a b).setSub k n = appendC (a.setSub k n) b := by
  induction a using Children.inducOn with
  | hnil => simp [Children.lookupc] at h
  | hleaf k2 v r ih =>
    by_cases hk : k2 = k
    · simp [appendC, Children.setSub, hk]
    · rw [Children.lookupc, if_neg hk] at h
      simp [appendC, Children.setSub, hk, ih h]
  | hsub k2 t r ih =>
    by_cases hk : k2 = k
    · simp [appendC, Children.setSub, hk]
    · rw [Children.lookupc, if_neg hk] at h
      simp [appendC, Children.setSub, hk, ih h]

theorem setSub_absent (c : Children) (k : String) (n : Node)
    (h : c.lookupc k = none) : c.setSub k n = appendC c (.subc k n .nil) := by
  induction c using Children.inducOn with
  | hnil => rfl
  | hleaf k2 v r ih =>
    rw [Children.lookupc] at h
    by_cases hk : k2 = k
    · rw [if_pos hk] at h
      cases h
    · rw [if_neg hk] at h
      simp [Children.setSub, appendC, hk, ih h]
  | hsub k2 t r ih =>
    rw [Children.lookupc] at h
    by_cases hk : k2 = k
    · rw [if_pos hk] at h
      cases h
    · rw [if_neg hk] at h
      simp [Children.setSub, appendC, hk, ih h]

theorem addc_absent_pos (c : Children) (k : String) (v : ℚ)
    (h : c.lookupc k = none) (hv : 0 < v) :
    c.addc k v = appendC c (.leafc k v .nil) := by
  induction c using Children.inducOn with
  | hnil => simp [Children.addc, appendC, hv]
  | hleaf k2 v2 r ih =>
    rw [Children.lookupc] at h
    by_cases hk : k2 = k
    · rw [if_pos hk] at h
      cases h
    · rw [if_neg hk] at h
      simp [Children.addc, appendC, hk, ih h]
  | hsub k2 t r ih =>
    rw [Children.lookupc] at h
    by_cases hk : k2 = k
    · rw [if_pos hk] at h
      cases h
    · rw [if_neg hk] at h
      simp [Children.addc, appendC, hk, ih h]

theorem withChildren_children (n : Node) : n.withChildren n.children = n := by
  obtain ⟨sc, loc, ex, ch⟩ := n
  rfl

theorem withChildren_withChildren (n : Node) (a b : Children) :
    (n.withChildren a).withChildren b = n.withChildren b := by
  obtain ⟨sc, loc, ex, ch⟩ := n
  rfl

theorem children_withChildren (n : Node) (c : Children) :
    (n.withChildren c).children = c := by
  obtain ⟨sc, loc, ex, ch⟩ := n
  rfl

theorem pruneNode_noExports (sc : ℚ) (loc : String) (ch : Children) :
    pruneNode (.mk sc loc [] ch) = .mk sc loc [] ch := by
  simp [pruneNode]

theorem lookupc_setSub_other (c : Children) (k0 : String) (n : Node)
    (k : String) (h : k0 ≠ k) : (c.setSub k0 n).lookupc k = c.lookupc k := by
  induction c using Children.inducOn with
  | hnil => simp [Children.setSub, Children.lookupc, h]
  | hleaf k2 v r ih =>
    by_cases hk : k2 = k0
    · subst hk
      simp [Children.setSub, Children.lookupc, h, ih]
    · simp [Children.setSub, Children.lookupc, hk, ih]
  | hsub k2 t r ih =>
    by_cases hk : k2 = k0
    · subst hk
      simp [Children.setSub, Children.lookupc, h, ih]
    · simp [Children.setSub, Children.lookupc, hk, ih]

theorem Fields.inducF {motive : Fields → Prop} (f : Fields)
    (hnil : motive .fnil)
    (hcons : ∀ k v r, motive r → motive (.fcons k v r)) : motive f :=
  match f with
  | .fnil => hnil
  | .fcons k v r => hcons k v r (inducF r hnil hcons)
termination_by structural f

theorem wfChildren_leafc {k : String} {v : ℚ} {r : Children}
    (h : wfChildren (.leafc k v r) = true) :
    0 < v ∧ k ≠ ".score" ∧ k ≠ ".location" ∧ r.lookupc k = none
      ∧ wfChildren r = true := by
  simp only [wfChildren, Bool.and_eq_true, Bool.not_eq_true',
    decide_eq_false_iff_not, decide_eq_true_eq, Option.isNone_iff_eq_none] at h
  tauto

theorem wfChildren_subc {k : String} {t : Node} {r : Children}
    (h : wfChildren (.subc k t r) = true) :
    k ≠ ".score" ∧ k ≠ ".location" ∧ r.lookupc k = none ∧ wfNode t = true
      ∧ wfChildren r = true := by
  simp only [wfChildren, Bool.and_eq_true, Bool.not_eq_true',
    decide_eq_false_iff_not, decide_eq_true_eq, Option.isNone_iff_eq_none] at h
  tauto

theorem findField_appendF (f g : Fields) (key : String) :
    findField key (f.appendF g)
      = match findField key f with
        | some v => some v
        | none => findField key g := by
  induction f using Fields.inducF with
  | hnil => simp [Fields.appendF, findField]
  | hcons k v r ih =>
    by_cases hk : k = key
    · simp [Fields.appendF, findField, hk]
    · simp [Fields.appendF, findField, hk, ih]

theorem findField_serializeChildren_meta (c : Children)
    (key : String) (hkey : key = ".score" ∨ key = ".location") :
    wfChildren c = true → findField key (serializeChildren c) = none := by
  induction c using Children.inducOn with
  | hnil =>
    intro h
    rfl
  | hleaf k v r ih =>
    intro h
    obtain ⟨-, hs, hl, -, hw⟩ := wfChildren_leafc h
    rw [serializeChildren, findField]
    have hk : ¬ k = key := by
      rcases hkey with hkey | hkey <;> rw [hkey]
      · exact hs
      · exact hl
    rw [if_neg hk]
    exact ih hw
  | hsub k t r ih =>
    intro h
    obtain ⟨hs, hl, -, -, hw⟩ := wfChildren_subc h
    rw [serializeChildren, findField]
    have hk : ¬ k = key := by
      rcases hkey with hkey | hkey <;> rw [hkey]
      · exact hs
      · exact hl
    rw [if_neg hk]
    exact ih hw

theorem findScore (c : Children) (s0 : ℚ) (l0 : String)
    (h : wfChildren c = true) :
    findField ".score" ((serializeChildren c).appendF (metaFields s0 l0))
      = some (.num s0) := by
  rw [findField_appendF,
    findField_serializeChildren_meta c ".score" (Or.inl rfl) h]
  rfl

theorem findLoc (c : Children) (s0 : ℚ) (l0 : String)
    (h : wfChildren c = true) :
    findField ".location" ((serializeChildren c).appendF (metaFields s0 l0))
      = some (.str l0) := by
  rw [findField_appendF,
    findField_serializeChildren_meta c ".location" (Or.inr rfl) h]
  rfl

theorem stripNode_score (n : Node) : (stripNode n).score = n.score := by
  obtain ⟨sc, loc, ex, ch⟩ := n
  rfl

theorem stripNode_location (n : Node) : (stripNode n).location = n.location := by
  obtain ⟨sc, loc, ex, ch⟩ := n
  rfl

theorem lookupc_strip (c : Children) (k : String) :
    (stripChildren c).lookupc k = (c.lookupc k).map (Sum.map id stripNode) := by
  induction c using Children.inducOn with
  | hnil => simp [stripChildren, Children.lookupc]
  | hleaf k2 v r ih =>
    by_cases hk : k2 = k
    · simp [stripChildren, Children.lookupc, hk]
    · simp [stripChildren, Children.lookupc, hk, ih]
  | hsub k2 t r ih =>
    by_cases hk : k2 = k
    · simp [stripChildren, Children.lookupc, hk]
    · simp [stripChildren, Children.lookupc, hk, ih]

mutual

/-- Loading the serialization of a well-formed dict (its meta keys trailing)
into a node whose children are disjoint from the dict's keys appends exactly
the stripped dict. -/
theorem loadAppends (c : Children) : ∀ (tree : Node) (ploc : String) (s0 : ℚ)
    (l0 : String), wfChildren c = true →
    (∀ (k : String) (e : Sum ℚ Node), c.lookupc k = some e →
      tree.children.lookupc k = none) →
    loadFields tree ploc ((serializeChildren c).appendF (metaFields s0 l0))
      = .ok (tree.withChildren (appendC tree.children (stripChildren c))) := by
  cases c with
  | nil =>
    intro tree ploc s0 l0 hw hdis
    show loadFields tree ploc (metaFields s0 l0) = _
    rw [metaFields, loadFields, if_pos (Or.inl rfl), loadFields,
      if_pos (Or.inr rfl), loadFields,
      show stripChildren Children.nil = Children.nil from rfl,
      appendC_nil, withChildren_children]
  | leafc k v r =>
    intro tree ploc s0 l0 hw hdis
    obtain ⟨hv, hs, hl, hn, hw2⟩ := wfChildren_leafc hw
    show loadFields tree ploc
        (.fcons k (.num v) ((serializeChildren r).appendF (metaFields s0 l0))) = _
    rw [loadFields, if_neg (by rintro (h | h); exacts [hs h, hl h])]
    have htr : tree.children.lookupc k = none :=
      hdis k (Sum.inl v) (by rw [Children.lookupc, if_pos rfl])
    have hadd : tree.add k v
        = tree.withChildren (appendC tree.children (.leafc k v .nil)) := by
      rw [Node.add, addc_absent_pos _ _ _ htr hv]
    show loadFields (tree.add k v) ploc
        ((serializeChildren r).appendF (metaFields s0 l0)) = _
    rw [hadd]
    have hdis2 : ∀ (k2 : String) (e : Sum ℚ Node), r.lookupc k2 = some e →
        (tree.withChildren
          (appendC tree.children (.leafc k v .nil))).children.lookupc k2 = none := by
      intro k2 e h2
      rw [children_withChildren, lookupc_appendC]
      have h3 : tree.children.lookupc k2 = none := by
        by_cases hk2 : k = k2
        · exact hdis k2 (Sum.inl v) (by rw [Children.lookupc, if_pos hk2])
        · exact hdis k2 e (by rw [Children.lookupc, if_neg hk2]; exact h2)
      rw [h3]
      have hk2 : ¬ k = k2 := by
        intro he
        rw [he] at hn
        rw [hn] at h2
        cases h2
      rw [Children.lookupc, if_neg hk2, Children.lookupc]
    rw [loadAppends r _ ploc s0 l0 hw2 hdis2]
    rw [withChildren_withChildren, children_withChildren, appendC_assoc]
    rfl
  | subc k t r =>
    intro tree ploc s0 l0 hw hdis
    obtain ⟨hs, hl, hn, hwt, hw2⟩ := wfChildren_subc hw
    show loadFields tree ploc
        (.fcons k (serializeNode t)
          ((serializeChildren r).appendF (metaFields s0 l0))) = _
    rw [loadFields, if_neg (by rintro (h | h); exacts [hs h, hl h])]
    have htr : tree.children.lookupc k = none :=
      hdis k (Sum.inr t) (by rw [Children.lookupc, if_pos rfl])
    rw [loadSerNode t tree ploc k hwt htr]
    show loadFields (tree.withChildren (tree.children.setSub k (stripNode t)))
        ploc ((serializeChildren r).appendF (metaFields s0 l0)) = _
    rw [setSub_absent _ _ _ htr]
    have hdis2 : ∀ (k2 : String) (e : Sum ℚ Node), r.lookupc k2 = some e →
        (tree.withChildren
          (appendC tree.children (.subc k (stripNode t) .nil))).children.lookupc k2
            = none := by
      intro k2 e h2
      rw [children_withChildren, lookupc_appendC]
      have h3 : tree.children.lookupc k2 = none := by
        by_cases hk2 : k = k2
        · exact hdis k2 (Sum.inr t) (by rw [Children.lookupc, if_pos hk2])
        · exact hdis k2 e (by rw [Children.lookupc, if_neg hk2]; exact h2)
      rw [h3]
      have hk2 : ¬ k = k2 := by
        intro he
        rw [he] at hn
        rw [hn] at h2
        cases h2
      rw [Children.lookupc, if_neg hk2, Children.lookupc]
    rw [loadAppends r _ ploc s0 l0 hw2 hdis2]
    rw [withChildren_withChildren, children_withChildren, appendC_assoc]
    rfl
termination_by structural c

/-- Loading a serialized well-formed node under a fresh key creates exactly
its stripped copy, appended to the parent dict. -/
theorem loadSerNode (t : Node) : ∀ (tree : Node) (ploc key : String),
    wfNode t = true →
    tree.children.lookupc key = none →
    loadValue tree ploc key (serializeNode t)
      = .ok (tree.withChildren (tree.children.setSub key (stripNode t))) := by
  cases t with
  | mk ts tl te tch =>
    intro tree ploc key hw hlk
    rw [wfNode] at hw
    show loadValue tree ploc key
        (.obj ((serializeChildren tch).appendF (metaFields ts tl))) = _
    rw [loadValue]
    rw [findScore tch ts tl hw, findLoc tch ts tl hw]
    have het : enterTarget tree key (locOf (some (.str tl)) ploc)
        (scoreOf (some (.num ts))) = Node.mk ts tl [] .nil := by
      rw [enterTarget, hlk]
      rfl
    rw [het]
    have hdis0 : ∀ (k2 : String) (e : Sum ℚ Node), tch.lookupc k2 = some e →
        (Node.mk ts tl [] Children.nil).children.lookupc k2 = none := by
      intro k2 e h2
      rfl
    rw [loadAppends tch (.mk ts tl [] .nil) (locOf (some (.str tl)) ploc) ts tl
      hw hdis0]
    show Except.ok (tree.withChildren (tree.children.setSub key
        (pruneNode ((Node.mk ts tl [] Children.nil).withChildren
          (appendC Children.nil (stripChildren tch)))))) = _
    rw [show (Node.mk ts tl [] Children.nil).withChildren
        (appendC Children.nil (stripChildren tch))
        = Node.mk ts tl [] (stripChildren tch) from rfl]
    rw [pruneNode_noExports]
    rfl
termination_by structural t

end

theorem lookupc_setSub_self (c : Children) (k0 : String) (n : Node) :
    (c.setSub k0 n).lookupc k0 = some (Sum.inr n) := by
  induction c using Children.inducOn with
  | hnil => simp [Children.setSub, Children.lookupc]
  | hleaf k2 v r ih =>
    by_cases hk : k2 = k0
    · simp [Children.setSub, Children.lookupc, hk]
    · simp [Children.setSub, Children.lookupc, hk, ih]
  | hsub k2 t r ih =>
    by_cases hk : k2 = k0
    · simp [Children.setSub, Children.lookupc, hk]
    · simp [Children.setSub, Children.lookupc, hk, ih]

theorem lookupc_setOsPath (root : Node) (newCh : Children) (k : String)
    (hk : k ≠ "os") :
    (setOsPathChildren root newCh).children.lookupc k
      = root.children.lookupc k := by
  cases h1 : root.children.lookupc "os" with
  | none => simp only [setOsPathChildren, h1]
  | some e =>
    cases e with
    | inl v => simp only [setOsPathChildren, h1]
    | inr osN =>
      cases h2 : osN.children.lookupc "path" with
      | none => simp only [setOsPathChildren, h1, h2]
      | some e2 =>
        cases e2 with
        | inl v => simp only [setOsPathChildren, h1, h2]
        | inr pN =>
          simp only [setOsPathChildren, h1, h2]
          rw [children_withChildren,
            lookupc_setSub_other _ _ _ _ (fun he => hk he.symm)]

theorem lookupc_setOsPath_os (root : Node) (newCh : Children) (osn : Node)
    (hos : root.children.lookupc "os" = some (Sum.inr osn)) :
    ∃ osn2, (setOsPathChildren root newCh).children.lookupc "os"
      = some (Sum.inr osn2) := by
  cases h2 : osn.children.lookupc "path" with
  | none =>
    simp only [setOsPathChildren, hos, h2]
    exact ⟨osn, rfl⟩
  | some e2 =>
    cases e2 with
    | inl v =>
      simp only [setOsPathChildren, hos, h2]
      exact ⟨osn, rfl⟩
    | inr pN =>
      simp only [setOsPathChildren, hos, h2]
      refine ⟨osn.withChildren (osn.children.setSub "path" (pN.withChildren newCh)), ?_⟩
      rw [children_withChildren, lookupc_setSub_self]

theorem setOsPath_append (root : Node) (xs : Children) (osn : Node)
    (hos : root.children.lookupc "os" = some (Sum.inr osn)) :
    setOsPathChildren (root.withChildren (appendC root.children xs)) .nil
      = (setOsPathChildren root .nil).withChildren
          (appendC (setOsPathChildren root .nil).children xs) := by
  have hL : (root.withChildren (appendC root.children xs)).children.lookupc "os"
      = some (Sum.inr osn) := by
    rw [children_withChildren]
    exact lookupc_appendC_left _ _ _ _ hos
  cases h2 : osn.children.lookupc "path" with
  | none =>
    have e1 : setOsPathChildren (root.withChildren (appendC root.children xs)) .nil
        = root.withChildren (appendC root.children xs) := by
      simp only [setOsPathChildren, hL, h2]
    have e2 : setOsPathChildren root .nil = root := by
      simp only [setOsPathChildren, hos, h2]
    rw [e1, e2]
  | some e2 =>
    cases e2 with
    | inl v =>
      have e1 : setOsPathChildren (root.withChildren (appendC root.children xs)) .nil
          = root.withChildren (appendC root.children xs) := by
        simp only [setOsPathChildren, hL, h2]
      have e2h : setOsPathChildren root .nil = root := by
        simp only [setOsPathChildren, hos, h2]
      rw [e1, e2h]
    | inr pN =>
      have e2h : setOsPathChildren root .nil
          = root.withChildren (root.children.setSub "os"
              (osn.withChildren (osn.children.setSub "path" (pN.withChildren .nil)))) := by
        simp only [setOsPathChildren, hos, h2]
      have hL2 : (appendC root.children xs).lookupc "os" = some (Sum.inr osn) :=
        lookupc_appendC_left _ _ _ _ hos
      have e1 : setOsPathChildren (root.withChildren (appendC root.children xs)) .nil
          = (root.withChildren (appendC root.children xs)).withChildren
              ((appendC root.children xs).setSub "os"
                (osn.withChildren (osn.children.setSub "path" (pN.withChildren .nil)))) := by
        simp only [setOsPathChildren, children_withChildren, hL2, h2]
      rw [e1, e2h]
      rw [withChildren_withChildren, withChildren_withChildren, children_withChildren]
      rw [setSub_appendC_left _ _ _ _ _ hos]

/-- Did the root data create a `posixpath` subtree (firing the alias)? -/
def hasPosixSub (c : Children) : Bool :=
  match c.lookupc posixpathName with
  | some (Sum.inr _) => true
  | _ => false

/-- The root after the alias clause has (or has not) cleared `os.path`. -/
def condClear (rest : Children) (root : Node) : Node :=
  if hasPosixSub rest then setOsPathChildren root .nil else root

theorem condClear_false {rest : Children} (root : Node)
    (h : hasPosixSub rest = false) : condClear rest root = root := by
  simp [condClear, h]

theorem condClear_true {rest : Children} (root : Node)
    (h : hasPosixSub rest = true) :
    condClear rest root = setOsPathChildren root .nil := by
  simp [condClear, h]

/-- Loading a serialized well-formed node under a key whose existing slot is
an empty node already carrying the serialized score and location (the fresh
`__future__`/`__builtin__`/`os.path` nodes) reuses that node: the result is
again the stripped serialized node, replaced in place. -/
theorem loadSerNodeReuse (t : Node) (tree : Node) (ploc key : String)
    (hw : wfNode t = true)
    (hl : tree.children.lookupc key
        = some (Sum.inr (.mk t.score t.location [] .nil))) :
    loadValue tree ploc key (serializeNode t)
      = .ok (tree.withChildren (tree.children.setSub key (stripNode t))) := by
  obtain ⟨ts, tl, te, tch⟩ := t
  rw [wfNode] at hw
  simp only [Node.score, Node.location] at hl
  show loadValue tree ploc key
      (.obj ((serializeChildren tch).appendF (metaFields ts tl))) = _
  rw [loadValue]
  rw [findScore tch ts tl hw, findLoc tch ts tl hw]
  have het : enterTarget tree key (locOf (some (.str tl)) ploc)
      (scoreOf (some (.num ts))) = Node.mk ts tl [] .nil := by
    rw [enterTarget, hl]
  rw [het]
  have hdis0 : ∀ (k2 : String) (e : Sum ℚ Node), tch.lookupc k2 = some e →
      (Node.mk ts tl [] Children.nil).children.lookupc k2 = none := by
    intro k2 e h2
    rfl
  rw [loadAppends tch (.mk ts tl [] .nil) (locOf (some (.str tl)) ploc) ts tl
    hw hdis0]
  show Except.ok (tree.withChildren (tree.children.setSub key
      (pruneNode ((Node.mk ts tl [] Children.nil).withChildren
        (appendC Children.nil (stripChildren tch)))))) = _
  rw [show (Node.mk ts tl [] Children.nil).withChildren
      (appendC Children.nil (stripChildren tch))
      = Node.mk ts tl [] (stripChildren tch) from rfl]
  rw [pruneNode_noExports]
  rfl

/-- The single constant reused as the fresh `os` node. -/
def freshOsNode : Node :=
  .mk 1 "S" [] (.subc "path" (.mk (6/5) "S" [] .nil) .nil)

/-- Loading the serialized `os` node of a well-formed root into the fresh
`os` node: the preset empty `path` child is reused in place, the remaining
children are appended, and the result is the stripped original. -/
theorem loadOsNode (pN : Node) (osRest : Children) (tree : Node)
    (ploc key : String)
    (hw : wfChildren (Children.subc "path" pN osRest) = true)
    (hps : pN.score = 6/5) (hpl : pN.location = "S")
    (hl : tree.children.lookupc key = some (Sum.inr freshOsNode)) :
    loadValue tree ploc key
        (serializeNode (.mk 1 "S" [] (.subc "path" pN osRest)))
      = .ok (tree.withChildren (tree.children.setSub key
          (stripNode (.mk 1 "S" [] (.subc "path" pN osRest))))) := by
  obtain ⟨hs, hlc, hn, hwp, hwr⟩ := wfChildren_subc hw
  show loadValue tree ploc key
      (.obj ((serializeChildren (.subc "path" pN osRest)).appendF
        (metaFields 1 "S"))) = _
  rw [loadValue]
  rw [findScore _ _ _ hw, findLoc _ _ _ hw]
  have het : enterTarget tree key (locOf (some (.str "S")) ploc)
      (scoreOf (some (.num 1))) = freshOsNode := by
    rw [enterTarget, hl]
  rw [het]
  have hpl2 : freshOsNode.children.lookupc "path"
      = some (Sum.inr (.mk pN.score pN.location [] .nil)) := by
    rw [hps, hpl]
    rfl
  have hstep : loadFields freshOsNode (locOf (some (.str "S")) ploc)
      ((serializeChildren (Children.subc "path" pN osRest)).appendF
        (metaFields 1 "S"))
      = .ok (Node.mk 1 "S" []
          (.subc "path" (stripNode pN) (stripChildren osRest))) := by
    show loadFields freshOsNode (locOf (some (.str "S")) ploc)
        (.fcons "path" (serializeNode pN)
          ((serializeChildren osRest).appendF (metaFields 1 "S"))) = _
    rw [loadFields, if_neg (by decide)]
    rw [loadSerNodeReuse pN freshOsNode (locOf (some (.str "S")) ploc) "path"
      hwp hpl2]
    show loadFields (freshOsNode.withChildren
        (freshOsNode.children.setSub "path" (stripNode pN)))
        (locOf (some (.str "S")) ploc)
        ((serializeChildren osRest).appendF (metaFields 1 "S")) = _
    rw [show freshOsNode.withChildren
        (freshOsNode.children.setSub "path" (stripNode pN))
        = Node.mk 1 "S" [] (.subc "path" (stripNode pN) .nil) from rfl]
    have hdis2 : ∀ (k2 : String) (e : Sum ℚ Node), osRest.lookupc k2 = some e →
        (Node.mk 1 "S" []
          (Children.subc "path" (stripNode pN) .nil)).children.lookupc k2
          = none := by
      intro k2 e h2
      have hk2 : ¬ "path" = k2 := by
        intro he
        rw [← he] at h2
        rw [hn] at h2
        cases h2
      show (Children.subc "path" (stripNode pN) .nil).lookupc k2 = none
      rw [Children.lookupc, if_neg hk2, Children.lookupc]
    rw [loadAppends osRest _ (locOf (some (.str "S")) ploc) 1 "S" hwr hdis2]
    rw [show (Node.mk 1 "S" []
        (Children.subc "path" (stripNode pN) Children.nil)).withChildren
        (appendC (Node.mk 1 "S" []
          (Children.subc "path" (stripNode pN) Children.nil)).children
          (stripChildren osRest))
        = Node.mk 1 "S" []
            (.subc "path" (stripNode pN) (stripChildren osRest)) from rfl]
  rw [hstep]
  show Except.ok (tree.withChildren (tree.children.setSub key
      (pruneNode (Node.mk 1 "S" []
        (.subc "path" (stripNode pN) (stripChildren osRest)))))) = _
  rw [pruneNode_noExports]
  rfl

theorem loadRootFields_step_num (root : Node) (key : String) (v : ℚ)
    (rest : Fields) (hkey : ¬ (key = ".score" ∨ key = ".location")) :
    loadRootFields root (.fcons key (.num v) rest)
      = loadRootFields (root.add key v) rest := by
  rw [loadRootFields, if_neg hkey]
  · rfl
  · intro fields h
    exact Data.noConfusion h

theorem loadRootFields_step_obj_new (root : Node) (key : String) (fs : Fields)
    (rest : Fields) (hkey : ¬ (key = ".score" ∨ key = ".location"))
    (hnew : root.children.lookupc key = none) :
    loadRootFields root (.fcons key (.obj fs) rest)
      = match loadValue
          (if key = posixpathName then setOsPathChildren root .nil else root)
          "L" key (.obj fs) with
        | .error e => .error e
        | .ok root2 => loadRootFields root2 rest := by
  rw [loadRootFields, if_neg hkey, hnew]

theorem loadRootFields_step_obj_existing (root : Node) (key : String)
    (fs : Fields) (rest : Fields)
    (hkey : ¬ (key = ".score" ∨ key = ".location")) (osn2 : Node)
    (hex : root.children.lookupc key = some (Sum.inr osn2)) :
    loadRootFields root (.fcons key (.obj fs) rest)
      = match loadValue root "L" key (.obj fs) with
        | .error e => .error e
        | .ok root2 => loadRootFields root2 rest := by
  rw [loadRootFields, if_neg hkey, hex]

/-- Running the root loop over the serialized tail items (meta fields
trailing) of a well-formed dict whose keys are fresh: the stripped items are
appended, and `os.path` is cleared exactly when a `posixpath` subtree was
among them (the alias clause). -/
theorem loadRootRest (rest : Children) : ∀ (root : Node) (s0 : ℚ)
    (l0 : String), wfChildren rest = true →
    (∀ (k : String) (e : Sum ℚ Node), rest.lookupc k = some e →
      root.children.lookupc k = none) →
    (∃ osn, root.children.lookupc "os" = some (Sum.inr osn)) →
    loadRootFields root ((serializeChildren rest).appendF (metaFields s0 l0))
      = .ok ((condClear rest root).withChildren
          (appendC (condClear rest root).children (stripChildren rest))) := by
  induction rest using Children.inducOn with
  | hnil =>
    intro root s0 l0 hw hdis hos
    show loadRootFields root (metaFields s0 l0) = _
    rw [metaFields, loadRootFields, if_pos (Or.inl rfl), loadRootFields,
      if_pos (Or.inr rfl), loadRootFields]
    rw [condClear_false root (by rfl)]
    rw [show stripChildren Children.nil = Children.nil from rfl, appendC_nil,
      withChildren_children]
    all_goals intro fields h
    all_goals exact Data.noConfusion h
  | hleaf k v r ih =>
    intro root s0 l0 hw hdis hos
    obtain ⟨hv, hsk, hlk, hn, hw2⟩ := wfChildren_leafc hw
    obtain ⟨osn, hosn⟩ := hos
    have hlkk : root.children.lookupc k = none :=
      hdis k (Sum.inl v) (by rw [Children.lookupc, if_pos rfl])
    show loadRootFields root
        (.fcons k (.num v)
          ((serializeChildren r).appendF (metaFields s0 l0))) = _
    rw [loadRootFields_step_num root k v _
      (by rintro (h | h); exacts [hsk h, hlk h])]
    rw [show root.add k v
        = root.withChildren (appendC root.children (.leafc k v .nil)) from by
      rw [Node.add, addc_absent_pos _ _ _ hlkk hv]]
    have hdis2 : ∀ (k2 : String) (e : Sum ℚ Node), r.lookupc k2 = some e →
        (root.withChildren
          (appendC root.children (.leafc k v .nil))).children.lookupc k2
          = none := by
      intro k2 e h2
      rw [children_withChildren, lookupc_appendC]
      have h3 : root.children.lookupc k2 = none := by
        by_cases hk2 : k = k2
        · exact hdis k2 (Sum.inl v) (by rw [Children.lookupc, if_pos hk2])
        · exact hdis k2 e (by rw [Children.lookupc, if_neg hk2]; exact h2)
      rw [h3]
      have hk2 : ¬ k = k2 := by
        intro he
        rw [he] at hn
        rw [hn] at h2
        cases h2
      rw [Children.lookupc, if_neg hk2, Children.lookupc]
    have hos2 : ∃ osn2, (root.withChildren
        (appendC root.children (.leafc k v .nil))).children.lookupc "os"
        = some (Sum.inr osn2) :=
      ⟨osn, by rw [children_withChildren]
               exact lookupc_appendC_left _ _ _ _ hosn⟩
    rw [ih _ s0 l0 hw2 hdis2 hos2]
    have hpr : hasPosixSub (Children.leafc k v r) = hasPosixSub r := by
      by_cases hk : k = posixpathName
      · subst hk
        simp [hasPosixSub, Children.lookupc, hn]
      · simp [hasPosixSub, Children.lookupc, hk]
    by_cases hp : hasPosixSub r = true
    · rw [condClear_true _ hp, condClear_true _ (by rw [hpr]; exact hp)]
      rw [setOsPath_append root (.leafc k v .nil) osn hosn]
      rw [withChildren_withChildren, children_withChildren, appendC_assoc]
      rfl
    · have hp2 : hasPosixSub r = false := by
        revert hp
        cases hasPosixSub r <;> simp
      rw [condClear_false _ hp2, condClear_false _ (by rw [hpr]; exact hp2)]
      rw [withChildren_withChildren, children_withChildren, appendC_assoc]
      rfl
  | hsub k t r ih =>
    intro root s0 l0 hw hdis hos
    obtain ⟨hsk, hlk, hn, hwt, hw2⟩ := wfChildren_subc hw
    obtain ⟨osn, hosn⟩ := hos
    have hlkk : root.children.lookupc k = none :=
      hdis k (Sum.inr t) (by rw [Children.lookupc, if_pos rfl])
    obtain ⟨ts, tl2, te2, tch2⟩ := t
    show loadRootFields root
        (.fcons k (.obj ((serializeChildren tch2).appendF (metaFields ts tl2)))
          ((serializeChildren r).appendF (metaFields s0 l0))) = _
    rw [loadRootFields_step_obj_new root k _ _
      (by rintro (h | h); exacts [hsk h, hlk h]) hlkk]
    by_cases hkp : k = posixpathName
    · subst hkp
      rw [if_pos rfl]
      have hlkk2 : (setOsPathChildren root .nil).children.lookupc posixpathName
          = none := by
        rw [lookupc_setOsPath root .nil posixpathName (by decide)]
        exact hlkk
      rw [show Data.obj ((serializeChildren tch2).appendF (metaFields ts tl2))
          = serializeNode (.mk ts tl2 te2 tch2) from rfl]
      rw [loadSerNode (.mk ts tl2 te2 tch2) (setOsPathChildren root .nil) "L"
        posixpathName hwt hlkk2]
      show loadRootFields ((setOsPathChildren root .nil).withChildren
          ((setOsPathChildren root .nil).children.setSub posixpathName
            (stripNode (.mk ts tl2 te2 tch2))))
          ((serializeChildren r).appendF (metaFields s0 l0)) = _
      rw [setSub_absent _ _ _ hlkk2]
      have hdis2 : ∀ (k2 : String) (e : Sum ℚ Node), r.lookupc k2 = some e →
          ((setOsPathChildren root .nil).withChildren
            (appendC (setOsPathChildren root .nil).children
              (.subc posixpathName (stripNode (.mk ts tl2 te2 tch2))
                .nil))).children.lookupc k2 = none := by
        intro k2 e h2
        rw [children_withChildren, lookupc_appendC]
        have hk2 : ¬ posixpathName = k2 := by
          intro he
          rw [← he] at h2
          rw [hn] at h2
          cases h2
        have hk2os : k2 ≠ "os" := by
          intro he
          have h3 := hdis k2 e (by
            rw [Children.lookupc, if_neg hk2]
            exact h2)
          rw [he] at h3
          rw [h3] at hosn
          cases hosn
        have h3 : (setOsPathChildren root .nil).children.lookupc k2 = none := by
          rw [lookupc_setOsPath root .nil k2 hk2os]
          exact hdis k2 e (by rw [Children.lookupc, if_neg hk2]; exact h2)
        rw [h3]
        rw [Children.lookupc, if_neg hk2, Children.lookupc]
      have hos2 : ∃ osn2, ((setOsPathChildren root .nil).withChildren
          (appendC (setOsPathChildren root .nil).children
            (.subc posixpathName (stripNode (.mk ts tl2 te2 tch2))
              .nil))).children.lookupc "os" = some (Sum.inr osn2) := by
        obtain ⟨osn2, hosn2⟩ := lookupc_setOsPath_os root .nil osn hosn
        exact ⟨osn2, by
          rw [children_withChildren]
          exact lookupc_appendC_left _ _ _ _ hosn2⟩
      rw [ih _ s0 l0 hw2 hdis2 hos2]
      have hp2 : hasPosixSub r = false := by
        rw [hasPosixSub, hn]
      rw [condClear_false _ hp2]
      rw [condClear_true _ (by
        rw [hasPosixSub, Children.lookupc, if_pos rfl])]
      rw [withChildren_withChildren, children_withChildren, appendC_assoc]
      rfl
    · rw [if_neg hkp]
      rw [show Data.obj ((serializeChildren tch2).appendF (metaFields ts tl2))
          = serializeNode (.mk ts tl2 te2 tch2) from rfl]
      rw [loadSerNode (.mk ts tl2 te2 tch2) root "L" k hwt hlkk]
      show loadRootFields (root.withChildren
          (root.children.setSub k (stripNode (.mk ts tl2 te2 tch2))))
          ((serializeChildren r).appendF (metaFields s0 l0)) = _
      rw [setSub_absent _ _ _ hlkk]
      have hdis2 : ∀ (k2 : String) (e : Sum ℚ Node), r.lookupc k2 = some e →
          (root.withChildren (appendC root.children
            (.subc k (stripNode (.mk ts tl2 te2 tch2))
              .nil))).children.lookupc k2 = none := by
        intro k2 e h2
        rw [children_withChildren, lookupc_appendC]
        have hk2 : ¬ k = k2 := by
          intro he
          rw [he] at hn
          rw [hn] at h2
          cases h2
        have h3 : root.children.lookupc k2 = none :=
          hdis k2 e (by rw [Children.lookupc, if_neg hk2]; exact h2)
        rw [h3]
        rw [Children.lookupc, if_neg hk2, Children.lookupc]
      have hos2 : ∃ osn2, (root.withChildren (appendC root.children
          (.subc k (stripNode (.mk ts tl2 te2 tch2))
            .nil))).children.lookupc "os" = some (Sum.inr osn2) :=
        ⟨osn, by rw [children_withChildren]
                 exact lookupc_appendC_left _ _ _ _ hosn⟩
      rw [ih _ s0 l0 hw2 hdis2 hos2]
      have hpr : hasPosixSub (Children.subc k (Node.mk ts tl2 te2 tch2) r)
          = hasPosixSub r := by
        have hkp2 : ¬ k = posixpathName := hkp
        simp [hasPosixSub, Children.lookupc, hkp2]
      by_cases hp : hasPosixSub r = true
      · rw [condClear_true _ hp, condClear_true _ (by rw [hpr]; exact hp)]
        rw [setOsPath_append root
          (.subc k (stripNode (.mk ts tl2 te2 tch2)) .nil) osn hosn]
        rw [withChildren_withChildren, children_withChildren, appendC_assoc]
        rfl
      · have hp2 : hasPosixSub r = false := by
          revert hp
          cases hasPosixSub r <;> simp
        rw [condClear_false _ hp2, condClear_false _ (by rw [hpr]; exact hp2)]
        rw [withChildren_withChildren, children_withChildren, appendC_assoc]
        rfl

theorem stripNode_children (n : Node) :
    (stripNode n).children = stripChildren n.children := by
  obtain ⟨sc, loc, ex, ch⟩ := n
  rfl

/-- The scorer walk reads only scores, locations, keys and subtree shape,
never the export lists dropped by `stripNode`. -/
theorem scoreKey_strip (key : List String) : ∀ (n : Node),
    scoreKey (stripNode n) key = scoreKey n key := by
  induction key with
  | nil =>
    intro n
    rfl
  | cons k rest ih =>
    intro n
    obtain ⟨sc, loc, ex, ch⟩ := n
    show scoreKey (Node.mk sc loc [] (stripChildren ch)) (k :: rest)
        = scoreKey (Node.mk sc loc ex ch) (k :: rest)
    simp only [scoreKey, Node.children, lookupc_strip]
    cases hc : ch.lookupc k with
    | none => rfl
    | some e =>
      cases e with
      | inl v => rfl
      | inr t =>
        show (some k :: (scoreKey (stripNode t) rest).1,
            (scoreKey (stripNode t) rest).2 + (stripNode t).score)
          = (some k :: (scoreKey t rest).1, (scoreKey t rest).2 + t.score)
        rw [ih t, stripNode_score]

mutual

theorem walkNode_strip (n : Node) : ∀ (fullKey path : List String)
    (scale : ℚ), walkNode fullKey (stripNode n) path scale
      = walkNode fullKey n path scale := by
  intro fullKey path scale
  obtain ⟨sc, loc, ex, ch⟩ := n
  show walkNode fullKey (Node.mk sc loc [] (stripChildren ch)) path scale
      = walkNode fullKey (Node.mk sc loc ex ch) path scale
  rw [walkNode, walkNode]
  rw [show scoreKey (Node.mk sc loc [] (stripChildren ch)) fullKey
      = scoreKey (Node.mk sc loc ex ch) fullKey from
    scoreKey_strip fullKey (Node.mk sc loc ex ch)]
  rw [walkChildren_strip ch fullKey path scale]
termination_by structural n

theorem walkChildren_strip (c : Children) : ∀ (fullKey path : List String)
    (scale : ℚ), walkChildren fullKey (stripChildren c) path scale
      = walkChildren fullKey c path scale := by
  intro fullKey path scale
  cases c with
  | nil => rfl
  | leafc k v r =>
    show walkChildren fullKey (stripChildren r) path scale
        = walkChildren fullKey r path scale
    exact walkChildren_strip r fullKey path scale
  | subc k t r =>
    show walkNode fullKey (stripNode t) (path ++ [k])
          ((stripNode t).score * scale - 1/10)
        ++ walkChildren fullKey (stripChildren r) path scale
      = walkNode fullKey t (path ++ [k]) (t.score * scale - 1/10)
        ++ walkChildren fullKey r path scale
    rw [stripNode_score, walkNode_strip t, walkChildren_strip r]
termination_by structural c

end

/-- `symbol_scores` is blind to the export dicts: stripping them changes
nothing. -/
theorem symbolScores_strip (n : Node) (symbol : String) :
    symbolScores (stripNode n) symbol = symbolScores n symbol := by
  rw [symbolScores, symbolScores, walkNode_strip]

theorem syncAlias_none (root : Node)
    (h : root.children.lookupc posixpathName = none) :
    syncAlias root = root := by
  simp only [syncAlias, h]

theorem syncAlias_leaf (root : Node) (v : ℚ)
    (h : root.children.lookupc posixpathName = some (Sum.inl v)) :
    syncAlias root = root := by
  simp only [syncAlias, h]

theorem syncAlias_sub (root : Node) (pp : Node)
    (h : root.children.lookupc posixpathName = some (Sum.inr pp)) :
    syncAlias root = setOsPathChildren root pp.children := by
  simp only [syncAlias, h]

theorem wellFormedRoot_unfold {sc : ℚ} {loc : String}
    {ex : List (String × ℚ)} {k1 k2 k3 : String} {osN fN bN : Node}
    {rest : Children}
    (h : wellFormedRoot (.mk sc loc ex
      (.subc k1 osN (.subc k2 fN (.subc k3 bN rest)))) = true) :
    sc = 1 ∧ loc = "3" ∧ k1 = "os" ∧ k2 = "__future__" ∧ k3 = "__builtin__"
      ∧ osN.score = 1 ∧ osN.location = "S" ∧ osShapeOk osN.children = true
      ∧ fN.score = 1 ∧ fN.location = "F" ∧ bN.score = 1 ∧ bN.location = "S"
      ∧ wfChildren (.subc k1 osN (.subc k2 fN (.subc k3 bN rest))) = true
      ∧ aliasOk osN rest = true := by
  rw [wellFormedRoot] at h
  simp only [Bool.and_eq_true, decide_eq_true_eq] at h
  tauto

/-- `serialize` followed by `deserialize` rebuilds every reachable tree up
to the dropped `_exports` dicts: the fresh preset nodes are reused with the
serialized content loaded into them, all other root entries are re-added,
and the `posixpath`/`os.path` dict sharing is re-established. -/
theorem deserialize_roundtrip (t : Node) (hw : wellFormedRoot t = true) :
    deserialize (serializeNode t) = .ok (stripNode t) := by
  obtain ⟨sc, loc, ex, ch⟩ := t
  cases ch with
  | nil => exact Bool.noConfusion hw
  | leafc a b c => exact Bool.noConfusion hw
  | subc k1 osN ch2 =>
  cases ch2 with
  | nil => exact Bool.noConfusion hw
  | leafc a b c => exact Bool.noConfusion hw
  | subc k2 fN ch3 =>
  cases ch3 with
  | nil => exact Bool.noConfusion hw
  | leafc a b c => exact Bool.noConfusion hw
  | subc k3 bN rest =>
  obtain ⟨hsc, hloc, hk1, hk2, hk3, hoss, hosl, hshape, hfs, hfl, hbs, hbl,
    hwf, halias⟩ := wellFormedRoot_unfold hw
  subst hsc hloc hk1 hk2 hk3
  obtain ⟨oss, osl, ose, osch⟩ := osN
  have h1 : oss = 1 := hoss
  have h2 : osl = "S" := hosl
  subst h1 h2
  cases osch with
  | nil => exact Bool.noConfusion hshape
  | leafc a b c => exact Bool.noConfusion hshape
  | subc kp pN osRest =>
  have hshape2 : osShapeOk (Children.subc kp pN osRest) = true := hshape
  rw [osShapeOk] at hshape2
  simp only [Bool.and_eq_true, decide_eq_true_eq] at hshape2
  obtain ⟨⟨hkp, hps⟩, hpl⟩ := hshape2
  subst hkp
  obtain ⟨ps, pl, pe, pch⟩ := pN
  have h3 : ps = 6/5 := hps
  have h4 : pl = "S" := hpl
  subst h3 h4
  obtain ⟨fs2, fl2, fe, fch⟩ := fN
  have h5 : fs2 = 1 := hfs
  have h6 : fl2 = "F" := hfl
  subst h5 h6
  obtain ⟨bs2, bl2, be, bch⟩ := bN
  have h7 : bs2 = 1 := hbs
  have h8 : bl2 = "S" := hbl
  subst h7 h8
  obtain ⟨-, -, hnOs, hwOs, hwf2⟩ := wfChildren_subc hwf
  obtain ⟨-, -, hnF, hwF, hwf3⟩ := wfChildren_subc hwf2
  obtain ⟨-, -, hnB, hwB, hwRest⟩ := wfChildren_subc hwf3
  have hro : rest.lookupc "os" = none := by
    rw [Children.lookupc, if_neg (by decide), Children.lookupc,
      if_neg (by decide)] at hnOs
    exact hnOs
  have hrf : rest.lookupc "__future__" = none := by
    rw [Children.lookupc, if_neg (by decide)] at hnF
    exact hnF
  have hwOs2 : wfChildren
      (Children.subc "path" (Node.mk (6/5) "S" pe pch) osRest) = true := hwOs
  have hwF2 : wfNode (Node.mk 1 "F" fe fch) = true := hwF
  have hwB2 : wfNode (Node.mk 1 "S" be bch) = true := hwB
  have hdis : ∀ (k : String) (e : Sum ℚ Node), rest.lookupc k = some e →
      (Node.mk 1 "3" [] (Children.subc "os" (Node.mk 1 "S" [] (Children.subc "path" (Node.mk (6/5) "S" [] (stripChildren pch)) (stripChildren osRest))) (Children.subc "__future__" (Node.mk 1 "F" [] (stripChildren fch)) (Children.subc "__builtin__" (Node.mk 1 "S" [] (stripChildren bch)) Children.nil)))).children.lookupc k = none := by
    intro k e h
    have hd1 : ¬ ("os" = k) := by
      intro he
      rw [← he, hro] at h
      exact Option.noConfusion h
    have hd2 : ¬ ("__future__" = k) := by
      intro he
      rw [← he, hrf] at h
      exact Option.noConfusion h
    have hd3 : ¬ ("__builtin__" = k) := by
      intro he
      rw [← he, hnB] at h
      exact Option.noConfusion h
    show (Children.subc "os" (Node.mk 1 "S" [] (Children.subc "path" (Node.mk (6/5) "S" [] (stripChildren pch)) (stripChildren osRest))) (Children.subc "__future__" (Node.mk 1 "F" [] (stripChildren fch))
      (Children.subc "__builtin__" (Node.mk 1 "S" [] (stripChildren bch)) Children.nil))).lookupc k = none
    rw [Children.lookupc, if_neg hd1, Children.lookupc, if_neg hd2,
      Children.lookupc, if_neg hd3, Children.lookupc]
  have eload : loadRootFields freshTree (Fields.fcons "os" (Data.obj ((serializeChildren (Children.subc "path" (Node.mk (6/5) "S" pe pch) osRest)).appendF (metaFields 1 "S"))) (Fields.fcons "__future__" (Data.obj ((serializeChildren fch).appendF (metaFields 1 "F"))) (Fields.fcons "__builtin__" (Data.obj ((serializeChildren bch).appendF (metaFields 1 "S"))) ((serializeChildren rest).appendF (metaFields 1 "3"))))) = Except.ok ((condClear rest (Node.mk 1 "3" [] (Children.subc "os" (Node.mk 1 "S" [] (Children.subc "path" (Node.mk (6/5) "S" [] (stripChildren pch)) (stripChildren osRest))) (Children.subc "__future__" (Node.mk 1 "F" [] (stripChildren fch)) (Children.subc "__builtin__" (Node.mk 1 "S" [] (stripChildren bch)) Children.nil))))).withChildren (appendC (condClear rest (Node.mk 1 "3" [] (Children.subc "os" (Node.mk 1 "S" [] (Children.subc "path" (Node.mk (6/5) "S" [] (stripChildren pch)) (stripChildren osRest))) (Children.subc "__future__" (Node.mk 1 "F" [] (stripChildren fch)) (Children.subc "__builtin__" (Node.mk 1 "S" [] (stripChildren bch)) Children.nil))))).children (stripChildren rest))) := by
    rw [loadRootFields_step_obj_existing freshTree "os" _ _ (by decide)
      freshOsNode (by rfl)]
    rw [show Data.obj ((serializeChildren (Children.subc "path" (Node.mk (6/5) "S" pe pch) osRest)).appendF (metaFields 1 "S")) = serializeNode (Node.mk 1 "S" [] (Children.subc "path" (Node.mk (6/5) "S" pe pch) osRest)) from rfl]
    rw [loadOsNode (Node.mk (6/5) "S" pe pch) osRest freshTree "L" "os"
      hwOs2 rfl rfl (by rfl)]
    show loadRootFields (Node.mk 1 "3" [] (Children.subc "os" (Node.mk 1 "S" [] (Children.subc "path" (Node.mk (6/5) "S" [] (stripChildren pch)) (stripChildren osRest))) (Children.subc "__future__" (Node.mk 1 "F" [] Children.nil) (Children.subc "__builtin__" (Node.mk 1 "S" [] Children.nil) Children.nil)))) (Fields.fcons "__future__" (Data.obj ((serializeChildren fch).appendF (metaFields 1 "F"))) (Fields.fcons "__builtin__" (Data.obj ((serializeChildren bch).appendF (metaFields 1 "S"))) ((serializeChildren rest).appendF (metaFields 1 "3")))) = _
    rw [loadRootFields_step_obj_existing (Node.mk 1 "3" [] (Children.subc "os" (Node.mk 1 "S" [] (Children.subc "path" (Node.mk (6/5) "S" [] (stripChildren pch)) (stripChildren osRest))) (Children.subc "__future__" (Node.mk 1 "F" [] Children.nil) (Children.subc "__builtin__" (Node.mk 1 "S" [] Children.nil) Children.nil)))) "__future__" _ _ (by decide)
      (Node.mk 1 "F" [] Children.nil) (by rfl)]
    rw [show Data.obj ((serializeChildren fch).appendF (metaFields 1 "F")) = serializeNode (Node.mk 1 "F" fe fch) from rfl]
    rw [loadSerNodeReuse (Node.mk 1 "F" fe fch) (Node.mk 1 "3" [] (Children.subc "os" (Node.mk 1 "S" [] (Children.subc "path" (Node.mk (6/5) "S" [] (stripChildren pch)) (stripChildren osRest))) (Children.subc "__future__" (Node.mk 1 "F" [] Children.nil) (Children.subc "__builtin__" (Node.mk 1 "S" [] Children.nil) Children.nil)))) "L" "__future__"
      hwF2 (by rfl)]
    show loadRootFields (Node.mk 1 "3" [] (Children.subc "os" (Node.mk 1 "S" [] (Children.subc "path" (Node.mk (6/5) "S" [] (stripChildren pch)) (stripChildren osRest))) (Children.subc "__future__" (Node.mk 1 "F" [] (stripChildren fch)) (Children.subc "__builtin__" (Node.mk 1 "S" [] Children.nil) Children.nil)))) (Fields.fcons "__builtin__" (Data.obj ((serializeChildren bch).appendF (metaFields 1 "S"))) ((serializeChildren rest).appendF (metaFields 1 "3"))) = _
    rw [loadRootFields_step_obj_existing (Node.mk 1 "3" [] (Children.subc "os" (Node.mk 1 "S" [] (Children.subc "path" (Node.mk (6/5) "S" [] (stripChildren pch)) (stripChildren osRest))) (Children.subc "__future__" (Node.mk 1 "F" [] (stripChildren fch)) (Children.subc "__builtin__" (Node.mk 1 "S" [] Children.nil) Children.nil)))) "__builtin__" _ _ (by decide)
      (Node.mk 1 "S" [] Children.nil) (by rfl)]
    rw [show Data.obj ((serializeChildren bch).appendF (metaFields 1 "S")) = serializeNode (Node.mk 1 "S" be bch) from rfl]
    rw [loadSerNodeReuse (Node.mk 1 "S" be bch) (Node.mk 1 "3" [] (Children.subc "os" (Node.mk 1 "S" [] (Children.subc "path" (Node.mk (6/5) "S" [] (stripChildren pch)) (stripChildren osRest))) (Children.subc "__future__" (Node.mk 1 "F" [] (stripChildren fch)) (Children.subc "__builtin__" (Node.mk 1 "S" [] Children.nil) Children.nil)))) "L" "__builtin__"
      hwB2 (by rfl)]
    show loadRootFields (Node.mk 1 "3" [] (Children.subc "os" (Node.mk 1 "S" [] (Children.subc "path" (Node.mk (6/5) "S" [] (stripChildren pch)) (stripChildren osRest))) (Children.subc "__future__" (Node.mk 1 "F" [] (stripChildren fch)) (Children.subc "__builtin__" (Node.mk 1 "S" [] (stripChildren bch)) Children.nil)))) ((serializeChildren rest).appendF (metaFields 1 "3")) = _
    rw [loadRootRest rest (Node.mk 1 "3" [] (Children.subc "os" (Node.mk 1 "S" [] (Children.subc "path" (Node.mk (6/5) "S" [] (stripChildren pch)) (stripChildren osRest))) (Children.subc "__future__" (Node.mk 1 "F" [] (stripChildren fch)) (Children.subc "__builtin__" (Node.mk 1 "S" [] (stripChildren bch)) Children.nil)))) 1 "3" hwRest hdis ⟨(Node.mk 1 "S" [] (Children.subc "path" (Node.mk (6/5) "S" [] (stripChildren pch)) (stripChildren osRest))), by rfl⟩]
  have hfinal : syncAlias ((condClear rest (Node.mk 1 "3" [] (Children.subc "os" (Node.mk 1 "S" [] (Children.subc "path" (Node.mk (6/5) "S" [] (stripChildren pch)) (stripChildren osRest))) (Children.subc "__future__" (Node.mk 1 "F" [] (stripChildren fch)) (Children.subc "__builtin__" (Node.mk 1 "S" [] (stripChildren bch)) Children.nil))))).withChildren (appendC (condClear rest (Node.mk 1 "3" [] (Children.subc "os" (Node.mk 1 "S" [] (Children.subc "path" (Node.mk (6/5) "S" [] (stripChildren pch)) (stripChildren osRest))) (Children.subc "__future__" (Node.mk 1 "F" [] (stripChildren fch)) (Children.subc "__builtin__" (Node.mk 1 "S" [] (stripChildren bch)) Children.nil))))).children (stripChildren rest))) = stripNode (Node.mk 1 "3" ex (Children.subc "os" (Node.mk 1 "S" ose (Children.subc "path" (Node.mk (6/5) "S" pe pch) osRest)) (Children.subc "__future__" (Node.mk 1 "F" fe fch) (Children.subc "__builtin__" (Node.mk 1 "S" be bch) rest)))) := by
    cases hpp : rest.lookupc posixpathName with
    | none =>
      have hps2 : hasPosixSub rest = false := by simp only [hasPosixSub, hpp]
      rw [condClear_false _ hps2]
      rw [show (Node.mk 1 "3" [] (Children.subc "os" (Node.mk 1 "S" [] (Children.subc "path" (Node.mk (6/5) "S" [] (stripChildren pch)) (stripChildren osRest))) (Children.subc "__future__" (Node.mk 1 "F" [] (stripChildren fch)) (Children.subc "__builtin__" (Node.mk 1 "S" [] (stripChildren bch)) Children.nil)))).withChildren (appendC (Node.mk 1 "3" [] (Children.subc "os" (Node.mk 1 "S" [] (Children.subc "path" (Node.mk (6/5) "S" [] (stripChildren pch)) (stripChildren osRest))) (Children.subc "__future__" (Node.mk 1 "F" [] (stripChildren fch)) (Children.subc "__builtin__" (Node.mk 1 "S" [] (stripChildren bch)) Children.nil)))).children
        (stripChildren rest)) = Node.mk 1 "3" [] (Children.subc "os" (Node.mk 1 "S" [] (Children.subc "path" (Node.mk (6/5) "S" [] (stripChildren pch)) (stripChildren osRest))) (Children.subc "__future__" (Node.mk 1 "F" [] (stripChildren fch)) (Children.subc "__builtin__" (Node.mk 1 "S" [] (stripChildren bch)) (stripChildren rest)))) from rfl]
      rw [syncAlias_none _ (by
        show (Children.subc "os" (Node.mk 1 "S" [] (Children.subc "path" (Node.mk (6/5) "S" [] (stripChildren pch)) (stripChildren osRest))) (Children.subc "__future__" (Node.mk 1 "F" [] (stripChildren fch)) (Children.subc "__builtin__" (Node.mk 1 "S" [] (stripChildren bch)) (stripChildren rest)))).lookupc posixpathName = none
        rw [Children.lookupc, if_neg (by decide), Children.lookupc,
          if_neg (by decide), Children.lookupc, if_neg (by decide),
          lookupc_strip, hpp]
        rfl)]
      rfl
    | some e =>
      cases e with
      | inl v =>
        have hps2 : hasPosixSub rest = false := by
          simp only [hasPosixSub, hpp]
        rw [condClear_false _ hps2]
        rw [show (Node.mk 1 "3" [] (Children.subc "os" (Node.mk 1 "S" [] (Children.subc "path" (Node.mk (6/5) "S" [] (stripChildren pch)) (stripChildren osRest))) (Children.subc "__future__" (Node.mk 1 "F" [] (stripChildren fch)) (Children.subc "__builtin__" (Node.mk 1 "S" [] (stripChildren bch)) Children.nil)))).withChildren (appendC (Node.mk 1 "3" [] (Children.subc "os" (Node.mk 1 "S" [] (Children.subc "path" (Node.mk (6/5) "S" [] (stripChildren pch)) (stripChildren osRest))) (Children.subc "__future__" (Node.mk 1 "F" [] (stripChildren fch)) (Children.subc "__builtin__" (Node.mk 1 "S" [] (stripChildren bch)) Children.nil)))).children
          (stripChildren rest)) = Node.mk 1 "3" [] (Children.subc "os" (Node.mk 1 "S" [] (Children.subc "path" (Node.mk (6/5) "S" [] (stripChildren pch)) (stripChildren osRest))) (Children.subc "__future__" (Node.mk 1 "F" [] (stripChildren fch)) (Children.subc "__builtin__" (Node.mk 1 "S" [] (stripChildren bch)) (stripChildren rest)))) from rfl]
        rw [syncAlias_leaf _ v (by
          show (Children.subc "os" (Node.mk 1 "S" [] (Children.subc "path" (Node.mk (6/5) "S" [] (stripChildren pch)) (stripChildren osRest))) (Children.subc "__future__" (Node.mk 1 "F" [] (stripChildren fch)) (Children.subc "__builtin__" (Node.mk 1 "S" [] (stripChildren bch)) (stripChildren rest)))).lookupc posixpathName = some (Sum.inl v)
          rw [Children.lookupc, if_neg (by decide), Children.lookupc,
            if_neg (by decide), Children.lookupc, if_neg (by decide),
            lookupc_strip, hpp]
          rfl)]
        rfl
      | inr ppN =>
        have hps2 : hasPosixSub rest = true := by
          simp only [hasPosixSub, hpp]
        rw [condClear_true _ hps2]
        rw [show setOsPathChildren (Node.mk 1 "3" [] (Children.subc "os" (Node.mk 1 "S" [] (Children.subc "path" (Node.mk (6/5) "S" [] (stripChildren pch)) (stripChildren osRest))) (Children.subc "__future__" (Node.mk 1 "F" [] (stripChildren fch)) (Children.subc "__builtin__" (Node.mk 1 "S" [] (stripChildren bch)) Children.nil)))) Children.nil = (Node.mk 1 "3" [] (Children.subc "os" (Node.mk 1 "S" [] (Children.subc "path" (Node.mk (6/5) "S" [] Children.nil) (stripChildren osRest))) (Children.subc "__future__" (Node.mk 1 "F" [] (stripChildren fch)) (Children.subc "__builtin__" (Node.mk 1 "S" [] (stripChildren bch)) Children.nil)))) from rfl]
        rw [show (Node.mk 1 "3" [] (Children.subc "os" (Node.mk 1 "S" [] (Children.subc "path" (Node.mk (6/5) "S" [] Children.nil) (stripChildren osRest))) (Children.subc "__future__" (Node.mk 1 "F" [] (stripChildren fch)) (Children.subc "__builtin__" (Node.mk 1 "S" [] (stripChildren bch)) Children.nil)))).withChildren (appendC (Node.mk 1 "3" [] (Children.subc "os" (Node.mk 1 "S" [] (Children.subc "path" (Node.mk (6/5) "S" [] Children.nil) (stripChildren osRest))) (Children.subc "__future__" (Node.mk 1 "F" [] (stripChildren fch)) (Children.subc "__builtin__" (Node.mk 1 "S" [] (stripChildren bch)) Children.nil)))).children
          (stripChildren rest)) = Node.mk 1 "3" [] (Children.subc "os" (Node.mk 1 "S" [] (Children.subc "path" (Node.mk (6/5) "S" [] Children.nil) (stripChildren osRest))) (Children.subc "__future__" (Node.mk 1 "F" [] (stripChildren fch)) (Children.subc "__builtin__" (Node.mk 1 "S" [] (stripChildren bch)) (stripChildren rest)))) from rfl]
        rw [syncAlias_sub _ (stripNode ppN) (by
          show (Children.subc "os" (Node.mk 1 "S" [] (Children.subc "path" (Node.mk (6/5) "S" [] Children.nil) (stripChildren osRest))) (Children.subc "__future__" (Node.mk 1 "F" [] (stripChildren fch)) (Children.subc "__builtin__" (Node.mk 1 "S" [] (stripChildren bch)) (stripChildren rest)))).lookupc posixpathName = some (Sum.inr (stripNode ppN))
          rw [Children.lookupc, if_neg (by decide), Children.lookupc,
            if_neg (by decide), Children.lookupc, if_neg (by decide),
            lookupc_strip, hpp]
          rfl)]
        have hal : ppN.children = pch := by
          have h2 := halias
          simp only [aliasOk, hpp] at h2
          exact of_decide_eq_true h2
        rw [stripNode_children ppN, hal]
        rfl
  rw [show serializeNode (Node.mk 1 "3" ex (Children.subc "os" (Node.mk 1 "S" ose (Children.subc "path" (Node.mk (6/5) "S" pe pch) osRest)) (Children.subc "__future__" (Node.mk 1 "F" fe fch) (Children.subc "__builtin__" (Node.mk 1 "S" be bch) rest)))) = Data.obj (Fields.fcons "os" (Data.obj ((serializeChildren (Children.subc "path" (Node.mk (6/5) "S" pe pch) osRest)).appendF (metaFields 1 "S"))) (Fields.fcons "__future__" (Data.obj ((serializeChildren fch).appendF (metaFields 1 "F"))) (Fields.fcons "__builtin__" (Data.obj ((serializeChildren bch).appendF (metaFields 1 "S"))) ((serializeChildren rest).appendF (metaFields 1 "3"))))) from rfl, deserialize, eload]
  show Except.ok (syncAlias ((condClear rest (Node.mk 1 "3" [] (Children.subc "os" (Node.mk 1 "S" [] (Children.subc "path" (Node.mk (6/5) "S" [] (stripChildren pch)) (stripChildren osRest))) (Children.subc "__future__" (Node.mk 1 "F" [] (stripChildren fch)) (Children.subc "__builtin__" (Node.mk 1 "S" [] (stripChildren bch)) Children.nil))))).withChildren (appendC (condClear rest (Node.mk 1 "3" [] (Children.subc "os" (Node.mk 1 "S" [] (Children.subc "path" (Node.mk (6/5) "S" [] (stripChildren pch)) (stripChildren osRest))) (Children.subc "__future__" (Node.mk 1 "F" [] (stripChildren fch)) (Children.subc "__builtin__" (Node.mk 1 "S" [] (stripChildren bch)) Children.nil))))).children (stripChildren rest)))) = Except.ok (stripNode (Node.mk 1 "3" ex (Children.subc "os" (Node.mk 1 "S" ose (Children.subc "path" (Node.mk (6/5) "S" pe pch) osRest)) (Children.subc "__future__" (Node.mk 1 "F" fe fch) (Children.subc "__builtin__" (Node.mk 1 "S" be bch) rest)))))
  exact congrArg Except.ok hfinal

/-- A reachable tree for the round-trip: the fresh preset nodes, content in
`os.path` and `__builtin__`, an export entry, and a `posixpath` root package
sharing its children dict with `os.path`. -/
def wTreeC4 : Node :=
  .mk 1 "3" []
    (.subc "os" (.mk 1 "S" [("path", 6/5)]
        (.subc "path" (.mk (6/5) "S" [] (.leafc "basename" 1 .nil)) .nil))
      (.subc "__future__" (.mk 1 "F" [] .nil)
        (.subc "__builtin__" (.mk 1 "S" [] (.leafc "print" (23/20) .nil))
          (.subc "posixpath" (.mk (6/5) "S" [] (.leafc "basename" 1 .nil))
            .nil))))

/-- C4: for every index tree as `SymbolIndex` builds it (fresh-root shape,
well-formed dicts, `posixpath`/`os.path` sharing), serializing and then
deserializing succeeds and yields a tree on which `symbol_scores` returns
the same list for every query symbol — identical scores, module paths and
members. -/
theorem c4_theorem (t : Node) (hw : wellFormedRoot t = true) :
    ∃ t2, deserialize (serializeNode t) = Except.ok t2
      ∧ ∀ symbol, symbolScores t2 symbol = symbolScores t symbol :=
  ⟨stripNode t, deserialize_roundtrip t hw,
    fun symbol => symbolScores_strip t symbol⟩

unseal Rat.add Rat.mul Rat.sub Rat.inv Rat.ofScientific in
/-- Witness: the hypothesis of `c4_theorem` holds at the concrete tree. -/
theorem c4_witness :
    wellFormedRoot wTreeC4 = true
      ∧ ∃ t2, deserialize (serializeNode wTreeC4) = Except.ok t2
          ∧ ∀ symbol, symbolScores t2 symbol = symbolScores wTreeC4 symbol :=
  ⟨by decide, c4_theorem wTreeC4 (by decide)⟩
end ImportMagic
